import Mathlib

/-!
# Verification of the rockide-vscode binary-installer subsystem

Shallow embedding, in Lean 4, of the version-resolution / download-integrity /
installation-lifecycle subsystem of the `rockide-vscode` repository
(`src/platform.ts`, `src/crypto.ts`, `src/installer.ts`, the `Downloader`,
the `Extractor`, and the two update-check entry points), together with
theorems settling the behavioural claims about it.

Modelling conventions:
* the filesystem is an in-memory tree of named files and directories;
  `fs.existsSync` is path lookup in that tree;
* machine integers (sizes, timestamps) are `Nat`;
* fallible filesystem primitives used by the best-effort `cleanup` routine
  are driven by an explicit error oracle (`ErrEnv`) so that arbitrary
  locked-file / I/O failures can be injected;
* network endpoints (release catalog, asset transfer, checksum manifest)
  are oracles carried in a world record, and every network touch is logged
  into an explicit event trace, so that "performs no network I/O" style
  properties are statements about the trace.
-/

/-! ## Platform model (`src/platform.ts`) -/

/-- Node's `process.platform` values relevant to `getPlatform`. -/
inductive NodePlatform where
  | darwin | win32 | linux | unknown
deriving Repr, DecidableEq

/-- Node's `process.arch` values relevant to `getArchitecture`. -/
inductive NodeArch where
  | x64 | arm64 | unknown
deriving Repr, DecidableEq

/-- `getPlatform` from `src/platform.ts`: maps `process.platform`, throwing
(`none`) on anything but darwin/win32/linux. -/
def getPlatform : NodePlatform → Option String
  | .darwin => some "darwin"
  | .win32 => some "windows"
  | .linux => some "linux"
  | .unknown => none

/-- `getArchitecture` from `src/platform.ts`. -/
def getArchitecture : NodeArch → Option String
  | .x64 => some "amd64"
  | .arm64 => some "arm64"
  | .unknown => none

/-- `PlatformInfo` from `src/platform.ts`. -/
structure PlatformInfo where
  platform : String
  arch : String
  isWindows : Bool
  executableName : String
  archiveName : String
deriving Repr, DecidableEq

/-- `getPlatformInfo` from `src/platform.ts`: derives executable and archive
names from the platform/architecture pair; `none` models the thrown error on
unsupported platforms. -/
def getPlatformInfo (np : NodePlatform) (na : NodeArch) : Option PlatformInfo :=
  match getPlatform np, getArchitecture na with
  | some p, some a =>
      let isWin := p == "windows"
      some { platform := p
             arch := a
             isWindows := isWin
             executableName := if isWin then "rockide.exe" else "rockide"
             archiveName := "rockide_" ++ p ++ "_" ++ a ++ ".tar.gz" }
  | _, _ => none

/-- The linux/amd64 platform info, used as the concrete platform in
witnesses and counterexamples. -/
def piLinux : PlatformInfo :=
  { platform := "linux", arch := "amd64", isWindows := false
    executableName := "rockide", archiveName := "rockide_linux_amd64.tar.gz" }

/-! ## Filesystem model -/

/-- Content of a regular file: its byte size and its SHA-256 digest (the
digest is carried as an attribute of the content, standing in for
`CryptoUtils.calculateFileHash`). -/
structure FileData where
  size : Nat
  sha256 : String
deriving Repr, DecidableEq

mutual

/-- A filesystem node: a regular file, or a directory with a modification
time (`stat.mtimeMs`, in milliseconds) and children. -/
inductive FsNode where
  | file (name : String) (data : FileData)
  | dir (name : String) (mtimeMs : Nat) (children : FsListing)
deriving Repr

/-- The entries of one directory, in listing order. -/
inductive FsListing where
  | nil
  | cons (head : FsNode) (tail : FsListing)
deriving Repr

end

namespace FsNode

def name : FsNode → String
  | .file n _ => n
  | .dir n _ _ => n

def isDir : FsNode → Bool
  | .file _ _ => false
  | .dir _ _ _ => true

end FsNode

namespace FsListing

def toList : FsListing → List FsNode
  | .nil => []
  | .cons h t => h :: toList t

def ofList : List FsNode → FsListing
  | [] => .nil
  | h :: t => .cons h (ofList t)

def isEmpty : FsListing → Bool
  | .nil => true
  | .cons _ _ => false

end FsListing

/-- Look up the child with a given name in a directory listing
(filesystem names within one directory are unique, which theorems assume
through `Nodup` hypotheses where it matters). -/
def childNamed (ns : List FsNode) (s : String) : Option FsNode :=
  ns.find? (fun n => n.name == s)

/-- Resolve a relative path inside a directory listing, as `fs.existsSync`
would traverse it: descend through directories; a file in a non-final
position makes the lookup fail. -/
def lookupIn (ns : List FsNode) : List String → Option FsNode
  | [] => none
  | [s] => childNamed ns s
  | s :: rest =>
      match childNamed ns s with
      | some (.dir _ _ cs) => lookupIn cs.toList rest
      | _ => none

/-! ## Best-effort recursive delete (`RockideInstaller.cleanup`, installer.ts 238-280)

The routine walks a directory, unlinks files (tolerating `EBUSY`/`EPERM`/
`EACCES` by skipping the file), recurses into subdirectories, then removes
the directory (tolerating `ENOTEMPTY`); everything is wrapped in an outer
`try`/`catch` that logs and returns.  Errors of the primitives are injected
through an oracle keyed by path and operation. -/

/-- Error codes distinguished by the cleanup code, plus catch-alls. -/
inductive ErrCode where
  | eBUSY | ePERM | eACCES | eNOTEMPTY | eNOTDIR | eNOENT | eIO
deriving Repr, DecidableEq

/-- Filesystem operations whose failure the oracle can dictate. -/
inductive FsOp where
  | statOp | unlinkOp | readdirOp | rmdirOp
deriving Repr, DecidableEq

/-- An error oracle: for a given absolute path (list of segments) and
operation, optionally the error that the primitive raises there. -/
abbrev ErrEnv : Type := List String → FsOp → Option ErrCode

/-- The oracle under which every filesystem primitive succeeds. -/
def noErr : ErrEnv := fun _ _ => none

/-- Is this one of the locked-file error codes the unlink handler tolerates
(`error.code === 'EBUSY' || 'EPERM' || 'EACCES'`, installer.ts 257)? -/
def ErrCode.isLockedCode : ErrCode → Bool
  | .eBUSY => true
  | .ePERM => true
  | .eACCES => true
  | _ => false

/-- Prepend a surviving child onto the outcome of processing the rest of a
directory listing, preserving a pending exception. -/
def consChild (c : FsNode) :
    Except (ErrCode × FsListing) FsListing →
    Except (ErrCode × FsListing) FsListing
  | .ok l => .ok (.cons c l)
  | .error (e, l) => .error (e, .cons c l)

/-- The outer `catch (error) { console.warn(...); }` of `cleanup`
(installer.ts 277-279): a thrown exception is logged and swallowed, leaving
whatever partially-cleaned state the throw left behind. -/
def catchAll : Except (ErrCode × Option FsNode) (Option FsNode) →
    Except ErrCode (Option FsNode)
  | .ok r => .ok r
  | .error (_, st) => .ok st

mutual

/-- The `try` body of `RockideInstaller.cleanup` (installer.ts 243-276):
list the directory, process each entry, then remove the directory
(tolerating `ENOTEMPTY`).  An `.error` is a thrown exception, paired with
the node's partially-cleaned state at the moment of the throw; the result
`Option FsNode` is the node's new state (`none` = fully removed). -/
def cleanupTry (env : ErrEnv) (p : List String) :
    FsNode → Except (ErrCode × Option FsNode) (Option FsNode)
  -- const files = await readdirAsync(dirPath);  (fails with ENOTDIR on a file)
  | .file nm fd =>
    (match env p .readdirOp with
     | some e => .error (e, some (.file nm fd))
     | none => .error (.eNOTDIR, some (.file nm fd)))
  | .dir nm mt children =>
    match env p .readdirOp with
    | some e => .error (e, some (.dir nm mt children))
    | none =>
      match cleanupChildren env p children with
      | .error (e, cs) => .error (e, some (.dir nm mt cs))
      | .ok remaining =>
        -- try { await rmdirAsync(dirPath); } catch ENOTEMPTY -> warn
        match env p .rmdirOp with
        | some e =>
            if e == .eNOTEMPTY then .ok (some (.dir nm mt remaining))
            else .error (e, some (.dir nm mt remaining))
        | none =>
            if remaining.isEmpty then .ok none
            else .ok (some (.dir nm mt remaining))
termination_by n => sizeOf n
decreasing_by all_goals simp_wf

/-- The `for (const file of files)` loop of `cleanup`: stat each entry,
recurse into directories, unlink files (skipping locked ones), rethrowing
any other error together with the partially-cleaned listing. -/
def cleanupChildren (env : ErrEnv) (p : List String) :
    FsListing → Except (ErrCode × FsListing) FsListing
  | .nil => .ok .nil
  | .cons (.dir nm mt cs) rest =>
    -- const stat = await statAsync(filePath);
    (match env (p ++ [nm]) .statOp with
     | some e => .error (e, .cons (.dir nm mt cs) rest)
     | none =>
       -- if (stat.isDirectory()) await this.cleanup(filePath);
       -- (the callee's own catch is `catchAll`, so this call never throws)
       match catchAll (cleanupTry env (p ++ [nm]) (.dir nm mt cs)) with
       | .ok none => cleanupChildren env p rest
       | .ok (some c2) => consChild c2 (cleanupChildren env p rest)
       | .error e => .error (e, .cons (.dir nm mt cs) rest))
  | .cons (.file nm fd) rest =>
    match env (p ++ [nm]) .statOp with
    | some e => .error (e, .cons (.file nm fd) rest)
    | none =>
      -- await unlinkAsync(filePath) with locked-file tolerance
      match env (p ++ [nm]) .unlinkOp with
      | none => cleanupChildren env p rest
      | some e =>
          if e.isLockedCode then consChild (.file nm fd) (cleanupChildren env p rest)
          else .error (e, .cons (.file nm fd) rest)
termination_by l => sizeOf l
decreasing_by all_goals (simp_wf <;> omega)

end

/-- `RockideInstaller.cleanup(dirPath)` (installer.ts 238-280) on an
existing node: the `try` body wrapped in the outer `catch`, which logs and
returns whatever partially-cleaned state the throw left behind. -/
def cleanupNode (env : ErrEnv) (p : List String) (n : FsNode) :
    Except ErrCode (Option FsNode) :=
  catchAll (cleanupTry env p n)

/-- `cleanup(dirPath)` including the initial `if (!fs.existsSync(dirPath))
return;` guard: `none` models a path that does not exist. -/
def cleanup (env : ErrEnv) (p : List String) : Option FsNode → Except ErrCode (Option FsNode)
  | none => .ok none
  | some n => cleanupNode env p n

/-- **C10**: for every directory path — whether or not it exists — and every
behaviour of the filesystem primitives (any error during traversal, unlink,
or directory removal, locked-file or otherwise), the Installer's recursive
`cleanup` returns normally: no error ever propagates to the caller, because
the outer `try`/`catch` logs and swallows everything the body can throw. -/
theorem cleanup_never_raises (env : ErrEnv) (p : List String) (node? : Option FsNode) :
    ∃ r, cleanup env p node? = .ok r := by
  cases node? with
  | none => exact ⟨none, rfl⟩
  | some n =>
    rw [cleanup, cleanupNode]
    cases cleanupTry env p n with
    | ok r => exact ⟨r, rfl⟩
    | error e => exact ⟨e.2, rfl⟩

/-- Structural induction for directory listings (the mutual inductive's own
eliminator has two motives, which the `induction` tactic does not accept). -/
theorem FsListing.inductOn {motive : FsListing → Prop} (hnil : motive .nil)
    (hcons : ∀ h t, motive t → motive (.cons h t)) : ∀ l, motive l
  | .nil => hnil
  | .cons h t => hcons h t (FsListing.inductOn hnil hcons t)

/-- Members of a listing are smaller than the listing. -/
theorem sizeOf_lt_of_mem_toList {c : FsNode} :
    ∀ {l : FsListing}, c ∈ l.toList → sizeOf c < sizeOf l := by
  intro l
  induction l using FsListing.inductOn with
  | hnil => intro h; simp [FsListing.toList] at h
  | hcons h t ih =>
    intro hm
    rw [FsListing.toList] at hm
    rcases List.mem_cons.mp hm with rfl | hm
    · simp
      omega
    · have := ih hm
      simp
      omega

/-- Under the error-free oracle, the child-processing loop of `cleanup`
removes every entry, provided recursive cleanup deletes each
subdirectory. -/
theorem cleanupChildren_noErr (p : List String) (cs : FsListing)
    (ih : ∀ c ∈ cs.toList, c.isDir = true → cleanupNode noErr (p ++ [c.name]) c = .ok none) :
    cleanupChildren noErr p cs = .ok .nil := by
  induction cs using FsListing.inductOn with
  | hnil => rw [cleanupChildren]
  | hcons c rest ihl =>
    have hrest : cleanupChildren noErr p rest = .ok .nil := by
      apply ihl
      intro c hc
      exact ih c (by rw [FsListing.toList]; exact List.mem_cons_of_mem _ hc)
    cases c with
    | dir nm mt gs =>
      have hc : cleanupNode noErr (p ++ [FsNode.name (.dir nm mt gs)]) (.dir nm mt gs)
          = .ok none :=
        ih _ (by rw [FsListing.toList]; exact List.mem_cons_self _ _) rfl
      simp only [FsNode.name] at hc
      rw [cleanupNode] at hc
      rw [cleanupChildren]
      simp [noErr, hc, hrest]
    | file nm fd =>
      rw [cleanupChildren]
      simp [noErr, hrest]

/-- Under the error-free oracle, `cleanup` deletes a directory tree
entirely (strong induction on the tree size). -/
theorem cleanupNode_noErr_aux :
    ∀ (k : Nat) (n : FsNode), sizeOf n ≤ k → n.isDir = true →
      ∀ p, cleanupNode noErr p n = .ok none := by
  intro k
  induction k with
  | zero =>
    intro n hn _ _
    exfalso
    cases n <;> simp_arith at hn
  | succ k ihk =>
    intro n hn hd p
    cases n with
    | file nm fd => simp [FsNode.isDir] at hd
    | dir nm mt cs =>
      have hcs : cleanupChildren noErr p cs = .ok .nil := by
        apply cleanupChildren_noErr
        intro c hc hcd
        apply ihk
        · have h1 := sizeOf_lt_of_mem_toList hc
          have h2 : sizeOf (FsNode.dir nm mt cs) = 1 + sizeOf nm + sizeOf mt + sizeOf cs := by
            simp
          omega
        · exact hcd
      rw [cleanupNode, cleanupTry]
      simp [noErr, hcs, FsListing.isEmpty, catchAll]

/-- `cleanup` with no filesystem errors deletes a directory completely. -/
theorem cleanupNode_noErr_dir (p : List String) (nm : String) (mt : Nat) (cs : FsListing) :
    cleanupNode noErr p (.dir nm mt cs) = .ok none :=
  cleanupNode_noErr_aux (sizeOf (FsNode.dir nm mt cs)) _ le_rfl rfl p

/-! ## Version store (`src/installer.ts`) -/

/-- JS truthiness of an optional configuration string: `undefined` and the
empty string are falsy. -/
def isTruthy : Option String → Bool
  | none => false
  | some p => !(p == "")

/-- The comparator `(a, b) => b.time - a.time` of `getInstalledVersions`
(installer.ts 219), as the "stays before" predicate of a sort: descending
by modification time. -/
def byTimeDesc (a b : String × Nat) : Bool := b.2 ≤ a.2

/-- The `{ name, time }` records `getInstalledVersions` builds: the name and
`mtimeMs` of every directory entry of the binaries dir (`stat.isDirectory()`
filters out plain files).  `readdirAsync`/`statAsync` are modelled as pure
queries of the in-memory tree. -/
def dirEntries (ns : List FsNode) : List (String × Nat) :=
  ns.filterMap fun n =>
    match n with
    | .dir nm mt _ => some (nm, mt)
    | .file _ _ => none

/-- `getInstalledVersions` (installer.ts 199-221): directory names of the
binaries dir sorted by modification time descending. -/
def getInstalledVersions (bin : List FsNode) : List String :=
  ((dirEntries bin).mergeSort byTimeDesc).map Prod.fst

/-- `private maxVersions = 5` (installer.ts 25). -/
def maxVersions : Nat := 5

/-- One iteration of the removal loop of `cleanupOldVersions`:
`await this.cleanup(path.join(this.getBinariesDir(), version))`, reflected
onto the listing of the binaries directory.  The `childNamed` test is the
`existsSync` guard at the top of `cleanup`; a fully-removed directory
disappears from the listing, a partially-cleaned one is replaced. -/
def removeVersionDir (env : ErrEnv) (bin : List FsNode) (v : String) : List FsNode :=
  match childNamed bin v with
  | none => bin
  | some c =>
      match cleanupNode env ["binaries", v] c with
      | .ok none => bin.eraseP (fun n => n.name == v)
      | .ok (some c2) => bin.map (fun n => if n.name == v then c2 else n)
      | .error _ => bin

/-- `cleanupOldVersions` (installer.ts 223-236) with the retention limit as
a parameter: snapshot the sorted version list, return unchanged when within
the limit, otherwise delete every version beyond the first `k`. -/
def cleanupOldVersionsWith (k : Nat) (env : ErrEnv) (bin : List FsNode) : List FsNode :=
  let versions := getInstalledVersions bin
  if versions.length ≤ k then bin
  else (versions.drop k).foldl (fun st v => removeVersionDir env st v) bin

/-- `cleanupOldVersions` as the source runs it, with `maxVersions = 5`. -/
def cleanupOldVersions (env : ErrEnv) (bin : List FsNode) : List FsNode :=
  cleanupOldVersionsWith maxVersions env bin

/-! ### Facts about the retention logic (claim C1) -/

theorem byTimeDesc_trans (a b c : String × Nat) :
    byTimeDesc a b = true → byTimeDesc b c = true → byTimeDesc a c = true := by
  simp [byTimeDesc]
  omega

theorem byTimeDesc_total (a b : String × Nat) :
    (byTimeDesc a b || byTimeDesc b a) = true := by
  simp [byTimeDesc]
  omega

/-- The names produced by `dirEntries` are a sublist of the listing's names
(so they inherit `Nodup`). -/
theorem dirEntries_map_fst_sublist (bin : List FsNode) :
    List.Sublist ((dirEntries bin).map Prod.fst) (bin.map FsNode.name) := by
  induction bin with
  | nil => exact List.Sublist.refl _
  | cons a t ih =>
    cases a with
    | file nm fd => simpa [dirEntries, FsNode.name] using ih.cons nm
    | dir nm mt cs => simpa [dirEntries, FsNode.name] using ih.cons₂ nm

/-- Every record of `dirEntries` comes from a directory node of the
listing. -/
theorem mem_dirEntries {bin : List FsNode} {nm : String} {mt : Nat}
    (h : (nm, mt) ∈ dirEntries bin) : ∃ cs, FsNode.dir nm mt cs ∈ bin := by
  induction bin with
  | nil => simp [dirEntries] at h
  | cons a t ih =>
    cases a with
    | file nm2 fd =>
      rw [dirEntries] at h
      simp only [List.filterMap_cons] at h
      rcases ih h with ⟨cs, hcs⟩
      exact ⟨cs, List.mem_cons_of_mem _ hcs⟩
    | dir nm2 mt2 cs2 =>
      rw [dirEntries] at h
      simp only [List.filterMap_cons] at h
      rcases List.mem_cons.mp h with heq | hmem
      · have h1 : nm = nm2 := congrArg Prod.fst heq
        have h2 : mt = mt2 := congrArg Prod.snd heq
        exact ⟨cs2, by rw [h1, h2]; exact List.mem_cons_self _ _⟩
      · rcases ih hmem with ⟨cs, hcs⟩
        exact ⟨cs, List.mem_cons_of_mem _ hcs⟩

/-- With unique names, `childNamed` finds exactly the member with that
name. -/
theorem childNamed_unique :
    ∀ (bin : List FsNode), (bin.map FsNode.name).Nodup →
      ∀ {n : FsNode}, n ∈ bin → childNamed bin n.name = some n := by
  intro bin
  induction bin with
  | nil => intro _ n hn; simp at hn
  | cons a t ih =>
    intro hnd n hn
    rw [List.map_cons, List.nodup_cons] at hnd
    rcases List.mem_cons.mp hn with rfl | hnt
    · simp [childNamed]
    · have hne : (a.name == n.name) = false := by
        by_contra hab
        have : a.name = n.name := by
          have := Bool.not_eq_false _ |>.mp hab
          exact eq_of_beq this
        exact hnd.1 (this ▸ List.mem_map_of_mem FsNode.name hnt)
      rw [childNamed, List.find?_cons_of_neg _ (by simp [hne])]
      exact ih hnd.2 hnt

/-- Removing by predicate "named `v`" equals filtering it out, when names
are unique. -/
theorem eraseP_name_eq_filter (v : String) :
    ∀ (bin : List FsNode), (bin.map FsNode.name).Nodup →
      bin.eraseP (fun n => n.name == v) = bin.filter (fun n => !(n.name == v)) := by
  intro bin
  induction bin with
  | nil => intro _; rfl
  | cons a t ih =>
    intro hnd
    rw [List.map_cons, List.nodup_cons] at hnd
    by_cases ha : a.name = v
    · rw [List.eraseP_cons_of_pos (by simp [ha])]
      rw [List.filter_cons_of_neg (by simp [ha])]
      symm
      rw [List.filter_eq_self]
      intro b hb
      have : b.name ≠ v := by
        intro hbv
        exact hnd.1 (by rw [ha, ← hbv]; exact List.mem_map_of_mem FsNode.name hb)
      simp [this]
    · rw [List.eraseP_cons_of_neg (by simp [ha])]
      rw [List.filter_cons_of_pos (by simp [ha])]
      rw [ih hnd.2]

/-- When the binaries dir has unique names and the entry named `v` (if any)
is a directory, a no-error `removeVersionDir` is exactly "filter out the
entry named `v`". -/
theorem removeVersionDir_noErr (bin : List FsNode) (v : String)
    (hnd : (bin.map FsNode.name).Nodup)
    (hdir : ∀ c, childNamed bin v = some c → c.isDir = true) :
    removeVersionDir noErr bin v = bin.filter (fun n => !(n.name == v)) := by
  rw [removeVersionDir]
  cases hc : childNamed bin v with
  | none =>
    have hnone : ∀ n ∈ bin, ¬((fun n => n.name == v) n = true) :=
      List.find?_eq_none.mp hc
    symm
    rw [List.filter_eq_self]
    intro b hb
    have := hnone b hb
    simp at this
    simp [this]
  | some c =>
    cases c with
    | file nm fd => simpa [FsNode.isDir] using hdir _ hc
    | dir nm mt cs =>
      have hclean : cleanupNode noErr ["binaries", v] (FsNode.dir nm mt cs) = .ok none :=
        cleanupNode_noErr_dir _ _ _ _
      simp only [hclean]
      exact eraseP_name_eq_filter v bin hnd

/-- Sequentially removing a `Nodup` list of directory names is filtering
them all out. -/
theorem foldl_removeVersionDir :
    ∀ (names : List String) (bin : List FsNode),
      (bin.map FsNode.name).Nodup → names.Nodup →
      (∀ v ∈ names, ∀ c, childNamed bin v = some c → c.isDir = true) →
      names.foldl (fun st v => removeVersionDir noErr st v) bin
        = bin.filter (fun n => !(names.contains n.name)) := by
  intro names
  induction names with
  | nil =>
    intro bin _ _ _
    simp
  | cons v vs ih =>
    intro bin hnd hvn hdir
    rw [List.foldl_cons, removeVersionDir_noErr bin v hnd (hdir v (List.mem_cons_self _ _))]
    have hnd2 : ((bin.filter (fun n => !(n.name == v))).map FsNode.name).Nodup :=
      List.Nodup.sublist (List.Sublist.map FsNode.name (List.filter_sublist bin)) hnd
    have hdir2 : ∀ u ∈ vs, ∀ c,
        childNamed (bin.filter (fun n => !(n.name == v))) u = some c → c.isDir = true := by
      intro u hu c hcu
      rw [childNamed] at hcu
      have hcmem : c ∈ bin.filter (fun n => !(n.name == v)) := List.mem_of_find?_eq_some hcu
      have hcname : c.name = u := by simpa using List.find?_some hcu
      have hcbin : c ∈ bin := List.mem_of_mem_filter hcmem
      have : childNamed bin c.name = some c := childNamed_unique bin hnd hcbin
      exact hdir u (List.mem_cons_of_mem _ hu) c (by rwa [hcname] at this)
    rw [ih _ hnd2 (List.nodup_cons.mp hvn).2 hdir2]
    rw [List.filter_filter]
    apply List.filter_congr
    intro n _
    by_cases h1 : n.name = v <;> by_cases h2 : n.name ∈ vs <;>
      simp [List.contains_cons, h1, h2]

/-- Filtering out a set of names commutes with taking directory entries. -/
theorem dirEntries_filter_names (names : List String) (bin : List FsNode) :
    dirEntries (bin.filter (fun n => !(names.contains n.name)))
      = (dirEntries bin).filter (fun e => !(names.contains e.1)) := by
  induction bin with
  | nil => rfl
  | cons a t ih =>
    cases a with
    | file nm fd =>
      by_cases hq : nm ∈ names <;>
        simp [dirEntries, FsNode.name, hq, List.filter_cons] at ih ⊢ <;>
        exact ih
    | dir nm mt cs =>
      by_cases hq : nm ∈ names <;>
        simp [dirEntries, FsNode.name, hq, List.filter_cons] at ih ⊢ <;>
        exact ih

/-- In a list sorted by time descending with pairwise-distinct times, an
element is among the first `k` exactly when fewer than `k` elements have a
strictly greater time. -/
theorem mem_take_iff_countP_lt :
    ∀ (l : List (String × Nat)),
      l.Pairwise (fun a b => byTimeDesc a b = true) →
      (l.map Prod.snd).Nodup →
      ∀ (k : Nat) (e : String × Nat), e ∈ l →
        (e ∈ l.take k ↔ l.countP (fun x => decide (e.2 < x.2)) < k) := by
  intro l
  induction l with
  | nil =>
    intro _ _ k e he
    simp at he
  | cons a t ih =>
    intro hs hsnd k e he
    rw [List.pairwise_cons] at hs
    rw [List.map_cons, List.nodup_cons] at hsnd
    rcases List.mem_cons.mp he with heq | het
    · subst heq
      have hct : t.countP (fun x => decide (e.2 < x.2)) = 0 := by
        rw [List.countP_eq_zero]
        intro x hx
        have hx2 := hs.1 x hx
        simp [byTimeDesc] at hx2
        simp
        omega
      rw [List.countP_cons, hct]
      simp
      cases k with
      | zero => simp
      | succ k => simp [List.take_succ_cons]
    · have hea : e.2 < a.2 := by
        have h1 := hs.1 e het
        simp [byTimeDesc] at h1
        have h2 : a.2 ≠ e.2 := by
          intro hq
          exact hsnd.1 (hq ▸ List.mem_map_of_mem Prod.snd het)
        omega
      have hcc : (a :: t).countP (fun x => decide (e.2 < x.2))
          = t.countP (fun x => decide (e.2 < x.2)) + 1 := by
        rw [List.countP_cons]
        simp [hea]
      rw [hcc]
      cases k with
      | zero => simp
      | succ k =>
        rw [List.take_succ_cons]
        have hne : e ≠ a := by
          intro h
          rw [h] at hea
          omega
        rw [List.mem_cons]
        simp only [hne, false_or]
        rw [ih hs.2 hsnd.2 k e het]
        omega

/-- **C1**: starting from any binaries directory (any number ≥ 0 of version
directories, with the unique names of a real directory listing and pairwise
distinct modification times), running `cleanupOldVersions` with the
retention limit `maxVersions = 5` and no filesystem errors leaves at most 5
version directories; a version directory survives exactly when fewer than 5
version directories carry a strictly more recent modification time (so the
5 most recently modified are preserved and the removed ones are exactly the
oldest beyond the limit), and no directory entry appears that was not
already present. -/
theorem cleanupOldVersions_retention (bin : List FsNode)
    (hnd : (bin.map FsNode.name).Nodup)
    (hmt : ((dirEntries bin).map Prod.snd).Nodup) :
    (dirEntries (cleanupOldVersions noErr bin)).length ≤ maxVersions ∧
    (∀ e ∈ dirEntries bin,
      (e ∈ dirEntries (cleanupOldVersions noErr bin) ↔
        (dirEntries bin).countP (fun x => decide (e.2 < x.2)) < maxVersions)) ∧
    (∀ e ∈ dirEntries (cleanupOldVersions noErr bin), e ∈ dirEntries bin) := by
  have hperm : ((dirEntries bin).mergeSort byTimeDesc).Perm (dirEntries bin) :=
    List.mergeSort_perm _ _
  have hpair : ((dirEntries bin).mergeSort byTimeDesc).Pairwise
      (fun a b => byTimeDesc a b = true) :=
    List.sorted_mergeSort byTimeDesc_trans byTimeDesc_total _
  have hsortsnd : (((dirEntries bin).mergeSort byTimeDesc).map Prod.snd).Nodup :=
    (hperm.map Prod.snd).nodup_iff.mpr hmt
  have hfst : ((dirEntries bin).map Prod.fst).Nodup :=
    List.Nodup.sublist (dirEntries_map_fst_sublist bin) hnd
  have hsortfst : (((dirEntries bin).mergeSort byTimeDesc).map Prod.fst).Nodup :=
    (hperm.map Prod.fst).nodup_iff.mpr hfst
  rw [cleanupOldVersions, cleanupOldVersionsWith]
  by_cases hlen : (getInstalledVersions bin).length ≤ maxVersions
  · rw [if_pos hlen]
    have hleq : (dirEntries bin).length = (getInstalledVersions bin).length := by
      rw [getInstalledVersions, List.length_map]
      exact hperm.length_eq.symm
    refine ⟨by omega, ?_, ?_⟩
    · intro e he
      constructor
      · intro _
        have h1 : (dirEntries bin).countP (fun x => decide (e.2 < x.2))
            ≠ (dirEntries bin).length := by
          intro hq
          have := List.countP_eq_length.mp hq e he
          simp at this
        have h2 := List.countP_le_length (fun x => decide (e.2 < x.2)) (l := dirEntries bin)
        omega
      · intro _
        exact he
    · intro e he
      exact he
  · rw [if_neg hlen]
    -- every name slated for removal is the name of a directory entry
    have hdirhyp : ∀ v ∈ (getInstalledVersions bin).drop maxVersions,
        ∀ c, childNamed bin v = some c → c.isDir = true := by
      intro v hv c hc
      have hvmem : v ∈ getInstalledVersions bin := List.mem_of_mem_drop hv
      rw [getInstalledVersions] at hvmem
      rcases List.mem_map.mp hvmem with ⟨⟨nm, mt⟩, hemem, hveq⟩
      have he2 : (nm, mt) ∈ dirEntries bin := hperm.mem_iff.mp hemem
      rcases mem_dirEntries he2 with ⟨cs, hcs⟩
      have hcu := childNamed_unique bin hnd hcs
      simp only [FsNode.name] at hcu
      rw [← hveq] at hc
      rw [hcu] at hc
      cases hc
      rfl
    have hremnodup : ((getInstalledVersions bin).drop maxVersions).Nodup := by
      apply List.Nodup.sublist (List.drop_sublist _ _)
      rw [getInstalledVersions]
      exact hsortfst
    rw [foldl_removeVersionDir _ bin hnd hremnodup hdirhyp]
    rw [dirEntries_filter_names]
    -- the removed names are the names of the sorted tail
    have hremeq : (getInstalledVersions bin).drop maxVersions
        = (((dirEntries bin).mergeSort byTimeDesc).drop maxVersions).map Prod.fst := by
      rw [getInstalledVersions, List.map_drop]
    -- membership in the sorted prefix decides the filter predicate
    have hsortnodup : ((dirEntries bin).mergeSort byTimeDesc).Nodup :=
      List.Nodup.of_map Prod.fst hsortfst
    have hdisj : List.Disjoint (((dirEntries bin).mergeSort byTimeDesc).take maxVersions)
        (((dirEntries bin).mergeSort byTimeDesc).drop maxVersions) := by
      have := hsortnodup
      rw [← List.take_append_drop maxVersions ((dirEntries bin).mergeSort byTimeDesc),
        List.nodup_append] at this
      exact this.2.2
    have hpredTrue : ∀ e ∈ ((dirEntries bin).mergeSort byTimeDesc).take maxVersions,
        (!((getInstalledVersions bin).drop maxVersions).contains e.1) = true := by
      intro e he
      have hnotin : e.1 ∉ (getInstalledVersions bin).drop maxVersions := by
        rw [hremeq]
        intro hmem
        rcases List.mem_map.mp hmem with ⟨e2, he2, hfeq⟩
        have heq : e2 = e :=
          List.inj_on_of_nodup_map hsortfst (List.mem_of_mem_drop he2)
            (List.mem_of_mem_take he) hfeq
        exact hdisj he (heq ▸ he2)
      simp [hnotin]
    have hpredFalse : ∀ e ∈ ((dirEntries bin).mergeSort byTimeDesc).drop maxVersions,
        (!((getInstalledVersions bin).drop maxVersions).contains e.1) = false := by
      intro e he
      have hin : e.1 ∈ (getInstalledVersions bin).drop maxVersions := by
        rw [hremeq]
        exact List.mem_map_of_mem Prod.fst he
      simp [hin]
    have hfs : ((dirEntries bin).mergeSort byTimeDesc).filter
          (fun e => !((getInstalledVersions bin).drop maxVersions).contains e.1)
        = ((dirEntries bin).mergeSort byTimeDesc).take maxVersions := by
      conv_lhs =>
        rw [← List.take_append_drop maxVersions ((dirEntries bin).mergeSort byTimeDesc)]
      rw [List.filter_append]
      rw [List.filter_eq_self.mpr hpredTrue]
      rw [List.filter_eq_nil_iff.mpr
        (fun a ha => by rw [hpredFalse a ha]; simp)]
      rw [List.append_nil]
    have hpermfil : ((dirEntries bin).filter
          (fun e => !((getInstalledVersions bin).drop maxVersions).contains e.1)).Perm
        (((dirEntries bin).mergeSort byTimeDesc).take maxVersions) := by
      rw [← hfs]
      exact (hperm.filter _).symm
    refine ⟨?_, ?_, ?_⟩
    · rw [hpermfil.length_eq, List.length_take]
      exact inf_le_left
    · intro e he
      have hmem_sorted : e ∈ (dirEntries bin).mergeSort byTimeDesc := hperm.mem_iff.mpr he
      have htake_iff := mem_take_iff_countP_lt _ hpair hsortsnd maxVersions e hmem_sorted
      have hsplit := hmem_sorted
      rw [← List.take_append_drop maxVersions ((dirEntries bin).mergeSort byTimeDesc)]
        at hsplit
      constructor
      · intro hin
        have hpred := (List.mem_filter.mp hin).2
        rcases List.mem_append.mp hsplit with htk | hdp
        · rw [← hperm.countP_eq]
          exact htake_iff.mp htk
        · rw [hpredFalse e hdp] at hpred
          cases hpred
      · intro hcount
        rw [List.mem_filter]
        refine ⟨he, ?_⟩
        have htk : e ∈ ((dirEntries bin).mergeSort byTimeDesc).take maxVersions :=
          htake_iff.mpr (by rw [hperm.countP_eq]; exact hcount)
        exact hpredTrue e htk
    · intro e he
      exact List.mem_of_mem_filter he

/-- Concrete binaries listing: six version directories with distinct
modification times (the state after six successive installs) plus a stray
file. -/
def binC1 : List FsNode :=
  [ .dir "v1.0.0" 10 .nil
  , .dir "v1.1.0" 20 .nil
  , .dir "v1.2.0" 30 .nil
  , .dir "v1.3.0" 40 .nil
  , .dir "v1.4.0" 50 .nil
  , .dir "v1.5.0" 60 .nil
  , .file "notes.txt" ⟨1, "h"⟩ ]

/-- Witness for C1 at a concrete six-version store. -/
theorem cleanupOldVersions_retention_witness :
    ((binC1.map FsNode.name).Nodup ∧ ((dirEntries binC1).map Prod.snd).Nodup) ∧
    ((dirEntries (cleanupOldVersions noErr binC1)).length ≤ maxVersions ∧
     (∀ e ∈ dirEntries binC1,
       (e ∈ dirEntries (cleanupOldVersions noErr binC1) ↔
         (dirEntries binC1).countP (fun x => decide (e.2 < x.2)) < maxVersions)) ∧
     (∀ e ∈ dirEntries (cleanupOldVersions noErr binC1), e ∈ dirEntries binC1)) :=
  ⟨⟨by decide, by decide⟩,
    cleanupOldVersions_retention binC1 (by decide) (by decide)⟩

/-- `getInstalledBinaryPath` (installer.ts 188-197): the expected binary
path of a version, returned iff `fs.existsSync` finds an entry there. -/
def getInstalledBinaryPath (pi : PlatformInfo) (bin : List FsNode) (version : String) :
    Option String :=
  let binaryPath := "binaries/" ++ version ++ "/" ++ pi.executableName
  if (lookupIn bin [version, pi.executableName]).isSome then some binaryPath else none

/-- `getActiveBinaryPath` (installer.ts 130-144): the configured override
path when truthy and existing, else the newest installed version's expected
binary path (note: with no existence check on that path), else `none`. -/
def getActiveBinaryPath (customPath : Option String) (customPathExists : Bool)
    (pi : PlatformInfo) (bin : List FsNode) : Option String :=
  if isTruthy customPath && customPathExists then customPath
  else
    match getInstalledVersions bin with
    | [] => none
    | latestVersion :: _ =>
        some ("binaries/" ++ latestVersion ++ "/" ++ pi.executableName)

/-! ### Claim C2: the installed-check -/

/-- Spec-side predicate, decidable form: "the platform-specific binary FILE
actually exists inside that version's directory". -/
def binaryFileExists (pi : PlatformInfo) (bin : List FsNode) (version : String) : Bool :=
  match lookupIn bin [version, pi.executableName] with
  | some (.file _ _) => true
  | _ => false

/-- A binaries dir whose `v1.0.0/rockide` entry is itself a directory — an
entry `fs.existsSync` reports as present although no binary *file* exists. -/
def binBadEntry : List FsNode :=
  [ .dir "v1.0.0" 0 (.cons (.dir "rockide" 0 .nil) .nil) ]

/-- **C2** (counterexample): on a version directory whose entry at the
binary name is a *directory*, `getInstalledBinaryPath` reports the version
as installed (because `fs.existsSync` is true for any entry kind), although
the platform binary file does not exist — refuting the claimed
"if and only if the binary file actually exists". -/
theorem getInstalledBinaryPath_not_iff_file :
    (getInstalledBinaryPath piLinux binBadEntry "v1.0.0").isSome = true ∧
    binaryFileExists piLinux binBadEntry "v1.0.0" = false := by
  decide

/-- **C2** (amended): `getInstalledBinaryPath pi bin version` returns the
expected binary path exactly when *some* filesystem entry (of any kind)
exists at `binaries/<version>/<executableName>` — that is, when the
binaries dir has a directory named `version` containing an entry named
like the platform executable.  In particular a version directory with no
entry at the binary name, or a missing version directory, is reported as
not installed. -/
theorem getInstalledBinaryPath_spec (pi : PlatformInfo) (bin : List FsNode) (version : String) :
    (getInstalledBinaryPath pi bin version
        = some ("binaries/" ++ version ++ "/" ++ pi.executableName))
      ↔ (∃ mt cs, childNamed bin version = some (.dir version mt cs) ∧
          ∃ c, childNamed cs.toList pi.executableName = some c) := by
  cases hc : childNamed bin version with
  | none => simp [getInstalledBinaryPath, lookupIn, hc]
  | some c =>
    cases c with
    | file nm fd => simp [getInstalledBinaryPath, lookupIn, hc]
    | dir nm mt cs =>
      have hnm : nm = version := by
        have h0 := List.find?_some hc
        simp [FsNode.name] at h0
        exact h0
      subst hnm
      cases hcc : childNamed cs.toList pi.executableName with
      | none => simp [getInstalledBinaryPath, lookupIn, hc, hcc]
      | some c2 =>
        simp [getInstalledBinaryPath, lookupIn, hc, hcc]
        exact ⟨mt, cs, ⟨rfl, rfl⟩, c2, hcc⟩

/-! ### Claim C7: resolving the active binary -/

/-- A single version directory containing no binary file at all. -/
def binNoBinary : List FsNode := [ .dir "v1.0.0" 5 .nil ]

/-- **C7** (counterexample): with no override configured and one version
directory that contains no binary file, `getActiveBinaryPath` still
returns the expected binary path, although that binary does not exist on
disk — the claim requires `none` in this situation. -/
theorem getActiveBinaryPath_no_existence_check :
    getActiveBinaryPath none false piLinux binNoBinary
      = some "binaries/v1.0.0/rockide" ∧
    (lookupIn binNoBinary ["v1.0.0", "rockide"]).isSome = false := by
  have hsort : (dirEntries binNoBinary).mergeSort byTimeDesc = [("v1.0.0", 5)] := by
    have hp := List.mergeSort_perm (dirEntries binNoBinary) byTimeDesc
    rw [show dirEntries binNoBinary = [("v1.0.0", 5)] from rfl] at hp
    exact List.perm_singleton.mp hp
  constructor
  · rw [getActiveBinaryPath, getInstalledVersions, hsort]
    rfl
  · rfl

/-- **C7** (amended): the truthy-and-existing override path always wins;
with no usable override, the result is `none` exactly when no version
directory exists, and otherwise it is the expected binary path of a
version directory with maximal modification time — returned without any
check that this binary actually exists on disk. -/
theorem getActiveBinaryPath_spec (customPath : Option String) (customPathExists : Bool)
    (pi : PlatformInfo) (bin : List FsNode) :
    ((isTruthy customPath && customPathExists) = true →
      getActiveBinaryPath customPath customPathExists pi bin = customPath) ∧
    ((isTruthy customPath && customPathExists) = false →
      (dirEntries bin = [] →
        getActiveBinaryPath customPath customPathExists pi bin = none) ∧
      (dirEntries bin ≠ [] →
        ∃ nm mt, (nm, mt) ∈ dirEntries bin ∧
          (∀ e ∈ dirEntries bin, e.2 ≤ mt) ∧
          getActiveBinaryPath customPath customPathExists pi bin
            = some ("binaries/" ++ nm ++ "/" ++ pi.executableName))) := by
  have hperm : ((dirEntries bin).mergeSort byTimeDesc).Perm (dirEntries bin) :=
    List.mergeSort_perm _ _
  have hpair : ((dirEntries bin).mergeSort byTimeDesc).Pairwise
      (fun a b => byTimeDesc a b = true) :=
    List.sorted_mergeSort byTimeDesc_trans byTimeDesc_total _
  constructor
  · intro h
    rw [getActiveBinaryPath, if_pos h]
  · intro h
    constructor
    · intro hde
      rw [getActiveBinaryPath, if_neg (by simp [h]), getInstalledVersions, hde,
        List.mergeSort_nil]
      rfl
    · intro hde
      have hsne : (dirEntries bin).mergeSort byTimeDesc ≠ [] := by
        intro hq
        rw [hq] at hperm
        exact hde (List.Perm.eq_nil hperm.symm)
      cases hseq : (dirEntries bin).mergeSort byTimeDesc with
      | nil => exact absurd hseq hsne
      | cons e rest =>
        refine ⟨e.1, e.2, ?_, ?_, ?_⟩
        · exact hperm.mem_iff.mp (hseq ▸ List.mem_cons_self e rest)
        · intro y hy
          have hysort : y ∈ (dirEntries bin).mergeSort byTimeDesc := hperm.mem_iff.mpr hy
          rw [hseq] at hysort
          rcases List.mem_cons.mp hysort with rfl | hyrest
          · exact le_rfl
          · have hp := hseq ▸ hpair
            rw [List.pairwise_cons] at hp
            have := hp.1 y hyrest
            simpa [byTimeDesc] using this
        · rw [getActiveBinaryPath, if_neg (by simp [h]), getInstalledVersions, hseq]
          rfl

/-- Witness for the amended C7 at a concrete store with no override. -/
theorem getActiveBinaryPath_spec_witness :
    (isTruthy none && false) = false ∧ dirEntries binNoBinary ≠ [] ∧
    (∃ nm mt, (nm, mt) ∈ dirEntries binNoBinary ∧
      (∀ e ∈ dirEntries binNoBinary, e.2 ≤ mt) ∧
      getActiveBinaryPath none false piLinux binNoBinary
        = some ("binaries/" ++ nm ++ "/" ++ piLinux.executableName)) :=
  ⟨by decide, by decide,
    ((getActiveBinaryPath_spec none false piLinux binNoBinary).2 (by decide)).2 (by decide)⟩

/-! ## Checksum-manifest parsing (`src/crypto.ts`) -/

/-- The character class `[a-fA-F0-9]` of the checksum-line regex. -/
def isHexChar (c : Char) : Bool :=
  c.isDigit || ('a' ≤ c && c ≤ 'f') || ('A' ≤ c && c ≤ 'F')

/-- The optional `*` marker in front of the filename, per the regex part
`\*?(\S+)$`: being greedy with backtracking, the star is stripped exactly
when at least one character follows it (on the sole remainder `"*"` the
regex backtracks and the filename is `*` itself). -/
def stripStar : List Char → List Char
  | '*' :: t => if t.isEmpty then '*' :: t else t
  | r => r

/-- `String.prototype.trim` at the character level (structural, so that
concrete manifests evaluate inside proofs). -/
def trimChars (cs : List Char) : List Char :=
  ((cs.dropWhile Char.isWhitespace).reverse.dropWhile Char.isWhitespace).reverse

/-- `content.split(sep)` for the single separator `'\n'`, at the character
level (structural): `split "" = [""]`,  a trailing newline yields a
trailing empty line, exactly like the JavaScript `String.prototype.split`.
-/
def splitOnNl : List Char → List (List Char)
  | [] => [[]]
  | c :: t =>
      if c = '\n' then [] :: splitOnNl t
      else match splitOnNl t with
        | [] => [[c]]
        | h :: r => (c :: h) :: r

/-- `String.prototype.toLowerCase`, at the character level. -/
def lowerStr (s : String) : String := (s.toList.map Char.toLower).asString

/-- The regex test `/^([a-fA-F0-9]{64})\s+\*?(\S+)$/` of
`CryptoUtils.parseChecksumFile` (crypto.ts 28) applied to a trimmed line:
exactly 64 hex characters, then at least one whitespace character, an
optional `*`, then a non-empty whitespace-free run reaching the end of the
line.  Returns `(digest, filename)` on a match. -/
def matchChecksumLine (line : String) : Option (String × String) :=
  let cs := (trimChars line.toList)
  let hex := cs.take 64
  let rest := cs.drop 64
  if hex.length == 64 && hex.all isHexChar then
    let ws := rest.takeWhile Char.isWhitespace
    let rest2 := rest.dropWhile Char.isWhitespace
    if !ws.isEmpty && !rest2.isEmpty && rest2.all (fun c => !c.isWhitespace) then
      some (hex.asString, (stripStar rest2).asString)
    else none
  else none

/-- `CryptoUtils.parseChecksumFile` (crypto.ts 21-35): split the manifest
on newlines and return the lowercased digest from the first line whose
match carries a filename exactly equal to the query; lines that are empty,
fail the regex, or name a different file are skipped. -/
def parseChecksumFile (content filename : String) : Option String :=
  ((splitOnNl content.toList).map List.asString).findSome? fun line =>
    match matchChecksumLine line with
    | some (d, f) => if f == filename then some (lowerStr d) else none
    | none => none

/-- Spec-side reading of one checksum-manifest line, written from the
spec's format `hex-digest<space(s)>[*]filename`: the trimmed line splits
into a 64-character hex digest, at least one whitespace character, and a
non-empty whitespace-free remainder; an optional `*` directly before the
filename is a marker, not part of the name. -/
def ChecksumLine (line digest fname : String) : Prop :=
  ∃ h w r : List Char,
    (trimChars line.toList) = h ++ w ++ r ∧
    h.length = 64 ∧ (∀ c ∈ h, isHexChar c = true) ∧
    w ≠ [] ∧ (∀ c ∈ w, c.isWhitespace = true) ∧
    r ≠ [] ∧ (∀ c ∈ r, c.isWhitespace = false) ∧
    digest = h.asString ∧ fname = (stripStar r).asString

/-- `takeWhile`/`dropWhile` on a concatenation whose first part wholly
satisfies the predicate and whose second part wholly fails it. -/
theorem takeWhile_dropWhile_append {α : Type} (p : α → Bool) :
    ∀ (w r : List α), (∀ c ∈ w, p c = true) → (∀ c ∈ r, p c = false) →
      (w ++ r).takeWhile p = w ∧ (w ++ r).dropWhile p = r := by
  intro w
  induction w with
  | nil =>
    intro r _ hr
    cases r with
    | nil => simp
    | cons a t =>
      have := hr a (List.mem_cons_self _ _)
      simp [List.takeWhile_cons, List.dropWhile_cons, this]
  | cons a t ih =>
    intro r hw hr
    have ha := hw a (List.mem_cons_self _ _)
    have ht := ih r (fun c hc => hw c (List.mem_cons_of_mem _ hc)) hr
    simp [List.takeWhile_cons, List.dropWhile_cons, ha, ht.1, ht.2]

/-- The executable regex test agrees exactly with the spec-side reading of
a checksum line. -/
theorem matchChecksumLine_iff (line digest fname : String) :
    matchChecksumLine line = some (digest, fname) ↔ ChecksumLine line digest fname := by
  constructor
  · intro h
    simp only [matchChecksumLine] at h
    split_ifs at h with hc1 hc2
    · simp only [Bool.and_eq_true, beq_iff_eq, List.all_eq_true] at hc1
      simp only [Bool.and_eq_true, Bool.not_eq_true'] at hc2
      simp only [Option.some.injEq, Prod.mk.injEq] at h
      refine ⟨(trimChars line.toList).take 64,
        ((trimChars line.toList).drop 64).takeWhile Char.isWhitespace,
        ((trimChars line.toList).drop 64).dropWhile Char.isWhitespace,
        ?_, hc1.1, hc1.2, ?_, ?_, ?_, ?_, h.1.symm, h.2.symm⟩
      · rw [List.append_assoc, List.takeWhile_append_dropWhile, List.take_append_drop]
      · intro hq
        rw [hq] at hc2
        simp at hc2
      · intro c hc
        exact List.mem_takeWhile_imp hc
      · intro hq
        rw [hq] at hc2
        simp at hc2
      · intro c hc
        have := hc2.2
        rw [List.all_eq_true] at this
        simpa using this c hc
  · rintro ⟨h, w, r, hcs, hh64, hhhex, hwne, hwws, hrne, hrnws, hdig, hfn⟩
    have hassoc : (trimChars line.toList) = h ++ (w ++ r) := by
      rw [hcs, List.append_assoc]
    have htake : (trimChars line.toList).take 64 = h := by
      rw [hassoc]
      exact List.take_left' hh64
    have hdrop : (trimChars line.toList).drop 64 = w ++ r := by
      rw [hassoc]
      exact List.drop_left' hh64
    have htw := takeWhile_dropWhile_append Char.isWhitespace w r hwws
      (fun c hc => hrnws c hc)
    simp only [matchChecksumLine, htake, hdrop, htw.1, htw.2]
    rw [if_pos, if_pos]
    · rw [hdig, hfn]
    · have hw' : w.isEmpty = false := by
        cases w with
        | nil => exact absurd rfl hwne
        | cons a t => rfl
      have hr' : r.isEmpty = false := by
        cases r with
        | nil => exact absurd rfl hrne
        | cons a t => rfl
      simp [hw', hr', List.all_eq_true]
      intro c hc
      simp [hrnws c hc]
    · simp [hh64, List.all_eq_true]
      exact hhhex


/-- The per-line lookup of `parseChecksumFile` over an arbitrary list of
lines, expressed against the spec-side `ChecksumLine`. -/
theorem findSome?_checksum (filename : String) :
    ∀ (lines : List String),
      ((∃ d, (lines.findSome? fun line =>
          match matchChecksumLine line with
          | some (d, f) => if f == filename then some (lowerStr d) else none
          | none => none) = some d) ↔
        (∃ line ∈ lines, ∃ d0, ChecksumLine line d0 filename)) ∧
      (∀ d, (lines.findSome? fun line =>
          match matchChecksumLine line with
          | some (d, f) => if f == filename then some (lowerStr d) else none
          | none => none) = some d →
        ∃ line ∈ lines, ∃ d0, ChecksumLine line d0 filename ∧ d = lowerStr d0) := by
  intro lines
  induction lines with
  | nil => simp
  | cons l ls ih =>
    rw [List.findSome?_cons]
    cases hml : matchChecksumLine l with
    | none =>
      simp only []
      have hnol : ∀ d0, ¬ChecksumLine l d0 filename := by
        intro d0 hcl
        have h2 := (matchChecksumLine_iff l d0 filename).mpr hcl
        rw [hml] at h2
        cases h2
      constructor
      · rw [ih.1]
        constructor
        · rintro ⟨line, hline, d0, hcl⟩
          exact ⟨line, List.mem_cons_of_mem _ hline, d0, hcl⟩
        · rintro ⟨line, hline, d0, hcl⟩
          rcases List.mem_cons.mp hline with rfl | hline2
          · exact absurd hcl (hnol d0)
          · exact ⟨line, hline2, d0, hcl⟩
      · intro d hd
        rcases ih.2 d hd with ⟨line, hline, d0, hcl, hlow⟩
        exact ⟨line, List.mem_cons_of_mem _ hline, d0, hcl, hlow⟩
    | some df =>
      obtain ⟨d1, f1⟩ := df
      simp only []
      have hiff : ∀ d0, ChecksumLine l d0 filename ↔ (d0 = d1 ∧ f1 = filename) := by
        intro d0
        constructor
        · intro hc
          have h2 := (matchChecksumLine_iff l d0 filename).mpr hc
          have h3 := h2.symm.trans hml
          injection h3 with h4
          rw [Prod.mk.injEq] at h4
          exact ⟨h4.1, h4.2.symm⟩
        · rintro ⟨h5, h6⟩
          rw [h5, ← h6]
          exact (matchChecksumLine_iff l d1 f1).mp hml
      by_cases hf : f1 = filename
      · rw [if_pos (show (f1 == filename) = true by simp [hf])]
        simp only []
        constructor
        · constructor
          · intro _
            exact ⟨l, List.mem_cons_self _ _, d1, (hiff d1).mpr ⟨rfl, hf⟩⟩
          · intro _
            exact ⟨lowerStr d1, rfl⟩
        · intro d hd
          injection hd with hd2
          exact ⟨l, List.mem_cons_self _ _, d1, (hiff d1).mpr ⟨rfl, hf⟩, hd2.symm⟩
      · have hnol : ∀ d0, ¬ChecksumLine l d0 filename := by
          intro d0 hc
          exact hf ((hiff d0).mp hc).2
        rw [if_neg (by simp [hf])]
        simp only []
        constructor
        · rw [ih.1]
          constructor
          · rintro ⟨line, hline, d0, hc⟩
            exact ⟨line, List.mem_cons_of_mem _ hline, d0, hc⟩
          · rintro ⟨line, hline, d0, hc⟩
            rcases List.mem_cons.mp hline with rfl | hline2
            · exact absurd hc (hnol d0)
            · exact ⟨line, hline2, d0, hc⟩
        · intro d hd
          rcases ih.2 d hd with ⟨line, hline, d0, hc, hlow⟩
          exact ⟨line, List.mem_cons_of_mem _ hline, d0, hc, hlow⟩

/-- **C8**: for any checksum-manifest text and queried filename,
`parseChecksumFile` succeeds exactly when some manifest line parses as
`hex-digest<whitespace(s)>[*]filename` with filename field exactly equal
to the query (the optional `*` being a marker, not part of the name), and
the digest it returns is that line's 64-hex-character digest (normalised
to lower case); it returns `none` when no line's filename equals the
query. -/
theorem parseChecksumFile_spec (content filename : String) :
    ((∃ d, parseChecksumFile content filename = some d) ↔
      (∃ line ∈ (splitOnNl content.toList).map List.asString, ∃ d0, ChecksumLine line d0 filename)) ∧
    (∀ d, parseChecksumFile content filename = some d →
      ∃ line ∈ (splitOnNl content.toList).map List.asString, ∃ d0, ChecksumLine line d0 filename ∧ d = lowerStr d0) := by
  rw [parseChecksumFile]
  exact findSome?_checksum filename ((splitOnNl content.toList).map List.asString)

/-! ## Release model (`src/github.ts`) and install orchestration
(`src/installer.ts` `install`, the `Downloader`, the `Extractor`)

Network endpoints are oracles in an `InstallWorld`; every network touch,
extraction, prune and user-visible message is logged in an `Event` trace in
execution order, so ordering and "no network I/O" claims are statements
about the trace. -/

/-- `GitHubAsset` (github.ts), the fields the installer uses. -/
structure GitHubAsset where
  name : String
  browser_download_url : String
deriving Repr, DecidableEq

/-- `GitHubRelease` (github.ts), the fields the installer uses. -/
structure GitHubRelease where
  tag_name : String
  assets : List GitHubAsset
deriving Repr, DecidableEq

/-- `InstallOptions` (installer.ts 15-18). -/
structure InstallOptions where
  version : Option String := none
  forceReinstall : Bool := false
deriving Repr, DecidableEq

/-- `GitHubClient.getAssetForPlatform` (github.ts): the asset named like
the platform archive. -/
def getAssetForPlatform (pinfo : PlatformInfo) (r : GitHubRelease) : Option GitHubAsset :=
  r.assets.find? (fun a => a.name == pinfo.archiveName)

/-- Modelled from the spec: `getChecksumAssetForPlatform` is called by
`install` (installer.ts 59) but its definition is not among the given
sources.  Per the spec (§4.5 `Verifying`, §6: an "optional companion
checksum-manifest URL"), a release may carry an optional checksum-manifest
asset for the platform archive; the lookup is modelled as finding the
asset named `<archiveName>.sha256`, `none` when absent.  The claims depend
only on the presence or absence of this asset, not on the naming rule. -/
def getChecksumAssetForPlatform (pinfo : PlatformInfo) (r : GitHubRelease) :
    Option GitHubAsset :=
  r.assets.find? (fun a => a.name == pinfo.archiveName ++ ".sha256")

/-- Typed failures of an install attempt; each corresponds to a thrown
`Error` in the source (`error.message` is summarised by the constructor). -/
inductive InstErr where
  | downloadFailed                  -- "Download failed: ..." / "No response body"
  | checksumMismatch                -- "Checksum verification failed. Download may be corrupted."
  | extractionFailed                -- "Failed to extract archive: ..."
  | binaryNotFound (path : String)  -- "Binary not found at <path>"
  | invalidBinarySize (size : Nat)  -- "Binary appears to be invalid (size: N bytes)"
deriving Repr, DecidableEq

/-- Observable effects of one installer run, in execution order. -/
inductive Event where
  | netLatestRelease                -- GET releases/latest (getLatestRelease)
  | netListReleases                 -- GET releases (getAllReleases, via getRelease)
  | netDownloadAsset (url : String) -- the asset byte transfer (Downloader fetch)
  | netFetchChecksum (url : String) -- the checksum-manifest fetch (verifyDownloadChecksum)
  | extractArchive                  -- Extractor.extractTarGz
  | pruneOldVersions                -- cleanupOldVersions invocation
  | verifyInstall (path : String)   -- verifyInstallation invocation
  | showInfo (msg : String)         -- vscode.window.showInformationMessage
  | showErrorMsg (msg : String)     -- vscode.window.showErrorMessage (literal text)
  | showInstallError (err : InstErr) -- "Failed to install Rockide: <message>"
deriving Repr, DecidableEq

/-- Network I/O events (REST queries and byte transfers). -/
def Event.isNetwork : Event → Bool
  | .netLatestRelease => true
  | .netListReleases => true
  | .netDownloadAsset _ => true
  | .netFetchChecksum _ => true
  | _ => false

/-- Asset-transfer events: the archive download and the checksum-manifest
fetch (the transfers the idempotence claim is about). -/
def Event.isTransfer : Event → Bool
  | .netDownloadAsset _ => true
  | .netFetchChecksum _ => true
  | _ => false

/-- The extension's global storage: the entries of `binaries/` and of
`temp/`. -/
structure Storage where
  binaries : List FsNode
  temp : List FsNode
deriving Repr

/-- The environment of one `install` run: configuration, release catalog,
platform, and the network/extraction oracles. -/
structure InstallWorld where
  customPath : Option String      -- configuration "rockide.binaryPath"
  customPathExists : Bool         -- fs.existsSync(customPath)
  releases : List GitHubRelease   -- GET releases (full catalog)
  latest : Option GitHubRelease   -- GET releases/latest (none: absent or failed)
  pinfo : PlatformInfo            -- getPlatformInfo()
  now : Nat                       -- mtime stamped on a newly created version dir
  download : String → Option FileData      -- url ↦ fetched archive bytes (none = failure)
  checksumText : String → Option String    -- url ↦ manifest text (none = fetch failure)
  extractBin : FileData → Option FileData  -- archive ↦ extracted binary (none = tar failure)
  storage : Storage

/-- Write (create or overwrite) a file in a directory listing. -/
def putFile (ns : List FsNode) (nm : String) (fd : FileData) : List FsNode :=
  if (childNamed ns nm).isSome
  then ns.map (fun n => if n.name == nm then .file nm fd else n)
  else ns ++ [.file nm fd]

/-- `ensureDirectoryExists` (Extractor): `mkdir -p` of the version dir. -/
def mkdirIfAbsent (ns : List FsNode) (version : String) (now : Nat) : List FsNode :=
  if (childNamed ns version).isSome then ns else ns ++ [.dir version now .nil]

/-- Write a file into the named subdirectory. -/
def putInDir (ns : List FsNode) (version nm : String) (fd : FileData) : List FsNode :=
  ns.map fun n =>
    match n with
    | .dir v mt cs => if v == version then .dir v mt (.cons (.file nm fd) cs) else .dir v mt cs
    | other => other

/-- `Downloader.downloadWithProgress` (Downloader, lines 163-239): fetch
the asset, write the archive into the temp dir; when a checksum URL was
supplied (the installer sets `verifyChecksum := !!checksumUrl`), fetch the
manifest and verify via `parseChecksumFile` on the file's base name plus a
case-insensitive hash comparison (`verifyDownloadChecksum`, 277-300; a
failed manifest fetch or absent entry also counts as failure).  Any
verification failure or download error deletes the staged file before the
error propagates (the explicit cleanup at 227 and the outer catch at 234).
Returns (outcome, temp-dir state, events). -/
def downloadWithProgress (w : InstallWorld) (temp : List FsNode)
    (url destName : String) (checksumUrl : Option String) :
    Except InstErr Unit × List FsNode × List Event :=
  match w.download url with
  | none =>
      (.error .downloadFailed, temp.eraseP (fun n => n.name == destName),
       [.netDownloadAsset url])
  | some fd =>
    let temp1 := putFile temp destName fd
    match checksumUrl with
    | none => (.ok (), temp1, [.netDownloadAsset url])
    | some cu =>
      let ok := match w.checksumText cu with
        | none => false
        | some text =>
          match parseChecksumFile text destName with
          | none => false
          | some expected => lowerStr fd.sha256 == lowerStr expected
      if ok then (.ok (), temp1, [.netDownloadAsset url, .netFetchChecksum cu])
      else (.error .checksumMismatch, temp1.eraseP (fun n => n.name == destName),
            [.netDownloadAsset url, .netFetchChecksum cu])

/-- `Extractor.extractTarGz`: ensure the version directory exists, untar,
return the executable's path.  Modelled at the granularity the installer
observes: on success the version directory contains the platform binary
produced from the archive content (`w.extractBin`); a tar failure leaves
the just-created directory behind and throws.  Permission bits are not
modelled.  Returns (outcome, binaries state, events). -/
def extractTarGz (w : InstallWorld) (bin : List FsNode) (version : String)
    (archive : FileData) : Except InstErr String × List FsNode × List Event :=
  let bin1 := mkdirIfAbsent bin version w.now
  match w.extractBin archive with
  | none => (.error .extractionFailed, bin1, [.extractArchive])
  | some bfd =>
      (.ok ("binaries/" ++ version ++ "/" ++ w.pinfo.executableName),
       putInDir bin1 version w.pinfo.executableName bfd,
       [.extractArchive])

/-- `downloadAndInstall` (installer.ts 146-175): clear any pre-existing
version directory, download (with optional checksum verification) into the
temp staging dir, extract into the version directory, then delete the
staged archive and clean the temp dir; on any error, best-effort delete
the version directory (`this.cleanup(versionDir)`) and rethrow. -/
def downloadAndInstall (w : InstallWorld) (st : Storage) (version url : String)
    (checksumUrl : Option String) : Except InstErr String × Storage × List Event :=
  let bin0 := if (childNamed st.binaries version).isSome
              then removeVersionDir noErr st.binaries version else st.binaries
  match downloadWithProgress w st.temp url w.pinfo.archiveName checksumUrl with
  | (.error e, temp1, ev) =>
      (.error e, { binaries := removeVersionDir noErr bin0 version, temp := temp1 }, ev)
  | (.ok _, temp1, ev) =>
      match childNamed temp1 w.pinfo.archiveName with
      | some (.file _ afd) =>
          match extractTarGz w bin0 version afd with
          | (.error e, bin1, ev2) =>
              (.error e,
               { binaries := removeVersionDir noErr bin1 version, temp := temp1 },
               ev ++ ev2)
          | (.ok binaryPath, bin1, ev2) =>
              -- extractor.cleanup(archivePath); this.cleanupTempDir()
              (.ok binaryPath, { binaries := bin1, temp := [] }, ev ++ ev2)
      | _ =>
          -- reading the staged archive back fails: surfaced as extraction failure
          (.error .extractionFailed,
           { binaries := removeVersionDir noErr bin0 version, temp := temp1 }, ev)

/-- `verifyInstallation` (installer.ts 177-186): the file at the binary
path must exist and be at least 1000000 bytes.  A directory at that path
passes `existsSync` but stats with size 0 in this model, hence fails the
size check. -/
def verifyInstallation (bin : List FsNode) (version exeName : String) :
    Except InstErr Unit :=
  match lookupIn bin [version, exeName] with
  | none => .error (.binaryNotFound ("binaries/" ++ version ++ "/" ++ exeName))
  | some (.file _ fd) =>
      if fd.size < 1000000 then .error (.invalidBinarySize fd.size) else .ok ()
  | some (.dir _ _ _) => .error (.invalidBinarySize 0)

/-- `getReleaseOrLatest` (installer.ts 78-95): resolve an explicit version
through the catalog (`getRelease`, accepting a conventional `v` prefix) or
fetch the latest release; paired with the network event this performs.
`none` covers both the not-found and the error path (both are reported
with the same message by the caller's branch). -/
def getReleaseOrLatest (w : InstallWorld) (version? : Option String) :
    Option GitHubRelease × List Event :=
  match version? with
  | some v => (w.releases.find? (fun r => r.tag_name == v || r.tag_name == "v" ++ v),
               [Event.netListReleases])
  | none => (w.latest, [Event.netLatestRelease])

/-- `install` (installer.ts 34-76): custom-path short-circuit, release
resolution (`getReleaseOrLatest` — note this network call happens before
the installed check), already-installed short-circuit, platform-asset
selection, download-and-install, then `cleanupOldVersions` followed by
`verifyInstallation` (in that order, lines 66-67), success message or
caught error.  Returns (binary path or null, storage, events). -/
def install (w : InstallWorld) (opts : InstallOptions) :
    Option String × Storage × List Event :=
  if isTruthy w.customPath && w.customPathExists && !opts.forceReinstall then
    (w.customPath, w.storage, [])
  else
    match getReleaseOrLatest w opts.version with
    | (none, ev1) =>
        (none, w.storage, ev1 ++ [.showErrorMsg "Failed to fetch Rockide release information"])
    | (some release, ev1) =>
      match getInstalledBinaryPath w.pinfo w.storage.binaries release.tag_name,
            opts.forceReinstall with
      | some installedPath, false => (some installedPath, w.storage, ev1)
      | _, _ =>
        match getAssetForPlatform w.pinfo release with
        | none =>
            (none, w.storage,
             ev1 ++ [.showErrorMsg "No Rockide binary available for your platform"])
        | some asset =>
          let checksumUrl := (getChecksumAssetForPlatform w.pinfo release).map
            (fun a => a.browser_download_url)
          match downloadAndInstall w w.storage release.tag_name
              asset.browser_download_url checksumUrl with
          | (.error e, st1, ev2) =>
              (none, st1, ev1 ++ ev2 ++ [.showInstallError e])
          | (.ok binaryPath, st1, ev2) =>
              let bin2 := cleanupOldVersions noErr st1.binaries
              match verifyInstallation bin2 release.tag_name w.pinfo.executableName with
              | .error e =>
                  (none, { st1 with binaries := bin2 },
                   ev1 ++ ev2 ++ [.pruneOldVersions, .verifyInstall binaryPath,
                     .showInstallError e])
              | .ok _ =>
                  (some binaryPath, { st1 with binaries := bin2 },
                   ev1 ++ ev2 ++ [.pruneOldVersions, .verifyInstall binaryPath,
                     .showInfo ("Rockide " ++ release.tag_name ++ " installed successfully")])

/-! ### Claim C3: the already-installed short-circuit -/

/-- World for C3: version `v1.2.3` already installed in the store, no
override path, the catalog holding the release. -/
def w3 : InstallWorld :=
  { customPath := none
    customPathExists := false
    releases := [{ tag_name := "v1.2.3",
                   assets := [{ name := "rockide_linux_amd64.tar.gz",
                                browser_download_url := "https://dl/rockide.tar.gz" }] }]
    latest := none
    pinfo := piLinux
    now := 1000
    download := fun _ => none
    checksumText := fun _ => none
    extractBin := fun _ => none
    storage := { binaries := [.dir "v1.2.3" 10 (.cons (.file "rockide" ⟨2000000, "h"⟩) .nil)]
                 temp := [] } }

/-- **C3** (counterexample): installing an already-installed version with
no `forceReinstall` does perform network I/O — the release-metadata query,
since `getReleaseOrLatest` runs before the installed check — refuting the
claimed "without performing any network I/O".  (No asset transfer occurs,
which is the amended claim.) -/
theorem install_second_call_does_network :
    (install w3 { version := some "v1.2.3" }).1 = some "binaries/v1.2.3/rockide" ∧
    (install w3 { version := some "v1.2.3" }).2.2 = [Event.netListReleases] ∧
    Event.netListReleases.isNetwork = true :=
  ⟨rfl, rfl, rfl⟩

/-- **C3** (amended): when the resolved version is already installed and
`forceReinstall` is not requested, `install` returns the existing binary
path with the storage untouched, and the only events — hence the only
network I/O — are those of the release-metadata query; no asset download
and no checksum transfer occurs, so the second of two successive installs
of the same version performs no byte transfer. -/
theorem install_short_circuit (w : InstallWorld) (opts : InstallOptions)
    (rel : GitHubRelease) (p : String)
    (hcp : (isTruthy w.customPath && w.customPathExists && !opts.forceReinstall) = false)
    (hrel : (getReleaseOrLatest w opts.version).1 = some rel)
    (hinst : getInstalledBinaryPath w.pinfo w.storage.binaries rel.tag_name = some p)
    (hforce : opts.forceReinstall = false) :
    install w opts = (some p, w.storage, (getReleaseOrLatest w opts.version).2) ∧
    ∀ e ∈ (install w opts).2.2, e.isTransfer = false := by
  rcases hr : getReleaseOrLatest w opts.version with ⟨rel?, ev1⟩
  rw [hr] at hrel
  simp only [] at hrel
  have hmain : install w opts = (some p, w.storage, ev1) := by
    rw [install, if_neg (by simp [hcp]), hr, hrel]
    simp only []
    rw [hinst, hforce]
  have hev1 : ∀ e ∈ ev1, e.isTransfer = false := by
    intro e he
    rcases hov : opts.version with _ | v <;> rw [hov] at hr <;>
      simp [getReleaseOrLatest] at hr <;> rw [← hr.2] at he <;> simp at he <;>
      rw [he] <;> rfl
  exact ⟨hmain, by intro e he; rw [hmain] at he; exact hev1 e he⟩

/-- Witness for the amended C3 at the concrete already-installed world. -/
theorem install_short_circuit_witness :
    (isTruthy w3.customPath && w3.customPathExists
        && !({ version := some "v1.2.3" } : InstallOptions).forceReinstall) = false ∧
    getInstalledBinaryPath w3.pinfo w3.storage.binaries "v1.2.3"
      = some "binaries/v1.2.3/rockide" ∧
    (install w3 { version := some "v1.2.3" } = (some "binaries/v1.2.3/rockide", w3.storage,
        (getReleaseOrLatest w3 (some "v1.2.3")).2) ∧
      ∀ e ∈ (install w3 { version := some "v1.2.3" }).2.2, e.isTransfer = false) :=
  ⟨by decide, by decide,
    install_short_circuit w3 { version := some "v1.2.3" }
      { tag_name := "v1.2.3",
        assets := [{ name := "rockide_linux_amd64.tar.gz",
                     browser_download_url := "https://dl/rockide.tar.gz" }] }
      "binaries/v1.2.3/rockide" (by decide) (by decide) (by decide) rfl⟩

/-! ### Claim C4: where pruning sits in the install sequence -/

/-- The downloader emits only network events — never a prune. -/
theorem prune_not_in_dwp (w : InstallWorld) (temp : List FsNode) (url destName : String)
    (cu : Option String) :
    Event.pruneOldVersions ∉ (downloadWithProgress w temp url destName cu).2.2 := by
  rw [downloadWithProgress]
  cases w.download url with
  | none => simp
  | some fd =>
    cases cu with
    | none => simp
    | some c =>
      simp only []
      split <;> simp

/-- Extraction emits exactly the extraction event. -/
theorem extractTarGz_events (w : InstallWorld) (bin : List FsNode) (version : String)
    (archive : FileData) :
    (extractTarGz w bin version archive).2.2 = [Event.extractArchive] := by
  rw [extractTarGz]
  cases w.extractBin archive <;> rfl


/-- `downloadAndInstall` never emits a prune event. -/
theorem prune_not_in_dai (w : InstallWorld) (st : Storage) (version url : String)
    (cu : Option String) :
    Event.pruneOldVersions ∉ (downloadAndInstall w st version url cu).2.2 := by
  rw [downloadAndInstall]
  rcases hdwp : downloadWithProgress w st.temp url w.pinfo.archiveName cu with ⟨res, temp1, ev⟩
  have hev : Event.pruneOldVersions ∉ ev := by
    have h0 := prune_not_in_dwp w st.temp url w.pinfo.archiveName cu
    rw [hdwp] at h0
    exact h0
  cases res with
  | error e => simpa using hev
  | ok u =>
    simp only []
    cases hcn : childNamed temp1 w.pinfo.archiveName with
    | none => simpa using hev
    | some c =>
      cases c with
      | dir nm mt cs => simpa using hev
      | file nm afd =>
        simp only []
        rcases hex : extractTarGz w (if (childNamed st.binaries version).isSome
            then removeVersionDir noErr st.binaries version else st.binaries) version afd
          with ⟨exres, bin1, ev2⟩
        have hev2 : ev2 = [Event.extractArchive] := by
          have h1 := extractTarGz_events w (if (childNamed st.binaries version).isSome
            then removeVersionDir noErr st.binaries version else st.binaries) version afd
          rw [hex] at h1
          exact h1
        cases exres <;> simp [hev2] <;> exact hev

/-- A successful `downloadAndInstall` performed an extraction. -/
theorem extract_in_dai_ok (w : InstallWorld) (st : Storage) (version url : String)
    (cu : Option String) (bp : String)
    (h : (downloadAndInstall w st version url cu).1 = .ok bp) :
    Event.extractArchive ∈ (downloadAndInstall w st version url cu).2.2 := by
  rw [downloadAndInstall] at h ⊢
  rcases hdwp : downloadWithProgress w st.temp url w.pinfo.archiveName cu with ⟨res, temp1, ev⟩
  rw [hdwp] at h
  cases res with
  | error e => simp at h
  | ok u =>
    simp only [] at h ⊢
    cases hcn : childNamed temp1 w.pinfo.archiveName with
    | none =>
      rw [hcn] at h
      simp at h
    | some c =>
      rw [hcn] at h
      cases c with
      | dir nm mt cs => simp at h
      | file nm afd =>
        simp only [] at h ⊢
        rcases hex : extractTarGz w (if (childNamed st.binaries version).isSome
            then removeVersionDir noErr st.binaries version else st.binaries) version afd
          with ⟨exres, bin1, ev2⟩
        rw [hex] at h
        have hev2 : ev2 = [Event.extractArchive] := by
          have h1 := extractTarGz_events w (if (childNamed st.binaries version).isSome
            then removeVersionDir noErr st.binaries version else st.binaries) version afd
          rw [hex] at h1
          exact h1
        cases exres with
        | error e => simp at h
        | ok bp2 => simp [hev2]

/-- Release resolution emits only its metadata-query event. -/
theorem prune_not_in_resolve (w : InstallWorld) (v? : Option String) :
    Event.pruneOldVersions ∉ (getReleaseOrLatest w v?).2 := by
  cases v? <;> simp [getReleaseOrLatest]

/-- **C4** (amended): within one `install` invocation, whenever pruning
runs it runs after download and extraction of the new version have
completed, and immediately BEFORE the new version's binary validation:
around every prune event the trace reads `… extract … prune, verify …` —
in particular pruning can run even though validation subsequently
fails. -/
theorem install_prune_position (w : InstallWorld) (opts : InstallOptions)
    (hp : Event.pruneOldVersions ∈ (install w opts).2.2) :
    ∃ l1 p l2, (install w opts).2.2
        = l1 ++ Event.pruneOldVersions :: Event.verifyInstall p :: l2 ∧
      Event.extractArchive ∈ l1 := by
  rw [install] at hp ⊢
  by_cases hif : (isTruthy w.customPath && w.customPathExists && !opts.forceReinstall) = true
  · rw [if_pos hif] at hp
    simp at hp
  · rw [if_neg hif] at hp ⊢
    rcases hrel : getReleaseOrLatest w opts.version with ⟨rel?, ev1⟩
    rw [hrel] at hp
    have hev1 : Event.pruneOldVersions ∉ ev1 := by
      have h0 := prune_not_in_resolve w opts.version
      rw [hrel] at h0
      exact h0
    cases rel? with
    | none =>
      simp only [] at hp
      rcases List.mem_append.mp hp with h1 | h1
      · exact absurd h1 hev1
      · simp at h1
    | some release =>
      simp only [] at hp ⊢
      cases hgip : getInstalledBinaryPath w.pinfo w.storage.binaries release.tag_name with
      | some installedPath =>
        rw [hgip] at hp
        cases hf : opts.forceReinstall with
        | false =>
          rw [hf] at hp
          simp only [] at hp
          exact absurd hp hev1
        | true =>
          rw [hf] at hp
          simp only [] at hp
          cases hasset : getAssetForPlatform w.pinfo release with
          | none =>
            rw [hasset] at hp
            simp only [] at hp
            rcases List.mem_append.mp hp with h1 | h1
            · exact absurd h1 hev1
            · simp at h1
          | some asset =>
            rw [hasset] at hp
            simp only [] at hp
            rcases hdai : downloadAndInstall w w.storage release.tag_name
                asset.browser_download_url
                ((getChecksumAssetForPlatform w.pinfo release).map
                  (fun a => a.browser_download_url)) with ⟨dres, st1, ev2⟩
            rw [hdai] at hp
            have hev2 : Event.pruneOldVersions ∉ ev2 := by
              have h0 := prune_not_in_dai w w.storage release.tag_name
                asset.browser_download_url
                ((getChecksumAssetForPlatform w.pinfo release).map
                  (fun a => a.browser_download_url))
              rw [hdai] at h0
              exact h0
            cases dres with
            | error e =>
              simp only [] at hp
              rcases List.mem_append.mp hp with h1 | h1
              · rcases List.mem_append.mp h1 with h2 | h2
                · exact absurd h2 hev1
                · exact absurd h2 hev2
              · simp at h1
            | ok bp =>
              have hex : Event.extractArchive ∈ ev2 := by
                have h0 := extract_in_dai_ok w w.storage release.tag_name
                  asset.browser_download_url
                  ((getChecksumAssetForPlatform w.pinfo release).map
                    (fun a => a.browser_download_url)) bp (by rw [hdai])
                rw [hdai] at h0
                exact h0
              simp only []
              rw [hdai]
              simp only []
              cases hver : verifyInstallation (cleanupOldVersions noErr st1.binaries)
                  release.tag_name w.pinfo.executableName with
              | error e =>
                simp only []
                refine ⟨ev1 ++ ev2, bp, [Event.showInstallError e], ?_, ?_⟩
                · simp
                · exact List.mem_append.mpr (Or.inr hex)
              | ok u =>
                simp only []
                refine ⟨ev1 ++ ev2, bp,
                  [Event.showInfo ("Rockide " ++ release.tag_name
                    ++ " installed successfully")], ?_, ?_⟩
                · simp
                · exact List.mem_append.mpr (Or.inr hex)
      | none =>
        rw [hgip] at hp
        simp only [] at hp ⊢
        cases hasset : getAssetForPlatform w.pinfo release with
        | none =>
          rw [hasset] at hp
          simp only [] at hp
          rcases List.mem_append.mp hp with h1 | h1
          · exact absurd h1 hev1
          · simp at h1
        | some asset =>
          rw [hasset] at hp
          simp only [] at hp
          rcases hdai : downloadAndInstall w w.storage release.tag_name
              asset.browser_download_url
              ((getChecksumAssetForPlatform w.pinfo release).map
                (fun a => a.browser_download_url)) with ⟨dres, st1, ev2⟩
          rw [hdai] at hp
          have hev2 : Event.pruneOldVersions ∉ ev2 := by
            have h0 := prune_not_in_dai w w.storage release.tag_name
              asset.browser_download_url
              ((getChecksumAssetForPlatform w.pinfo release).map
                (fun a => a.browser_download_url))
            rw [hdai] at h0
            exact h0
          cases dres with
          | error e =>
            simp only [] at hp
            rcases List.mem_append.mp hp with h1 | h1
            · rcases List.mem_append.mp h1 with h2 | h2
              · exact absurd h2 hev1
              · exact absurd h2 hev2
            · simp at h1
          | ok bp =>
            have hex : Event.extractArchive ∈ ev2 := by
              have h0 := extract_in_dai_ok w w.storage release.tag_name
                asset.browser_download_url
                ((getChecksumAssetForPlatform w.pinfo release).map
                  (fun a => a.browser_download_url)) bp (by rw [hdai])
              rw [hdai] at h0
              exact h0
            simp only []
            rw [hdai]
            simp only []
            cases hver : verifyInstallation (cleanupOldVersions noErr st1.binaries)
                release.tag_name w.pinfo.executableName with
            | error e =>
              simp only []
              refine ⟨ev1 ++ ev2, bp, [Event.showInstallError e], ?_, ?_⟩
              · simp
              · exact List.mem_append.mpr (Or.inr hex)
            | ok u =>
              simp only []
              refine ⟨ev1 ++ ev2, bp,
                [Event.showInfo ("Rockide " ++ release.tag_name
                  ++ " installed successfully")], ?_, ?_⟩
              · simp
              · exact List.mem_append.mpr (Or.inr hex)

/-- `cleanupOldVersions` is the identity when the store holds at most five
version directories. -/
theorem cleanupOldVersions_small (bin : List FsNode)
    (h : (dirEntries bin).length ≤ 5) :
    cleanupOldVersions noErr bin = bin := by
  have hlen : (getInstalledVersions bin).length ≤ maxVersions := by
    rw [getInstalledVersions, List.length_map,
      (List.mergeSort_perm (dirEntries bin) byTimeDesc).length_eq]
    simpa [maxVersions] using h
  simp only [cleanupOldVersions, cleanupOldVersionsWith]
  rw [if_pos hlen]

/-- World for an install run whose extracted binary is implausibly small:
empty store, the latest release downloads and extracts, but the binary is
only 10 bytes. -/
def w4 : InstallWorld :=
  { customPath := none
    customPathExists := false
    releases := []
    latest := some { tag_name := "v1.2.3",
                     assets := [{ name := "rockide_linux_amd64.tar.gz",
                                  browser_download_url := "https://dl/a.tar.gz" }] }
    pinfo := piLinux
    now := 777
    download := fun _ => some { size := 50, sha256 := "aa" }
    checksumText := fun _ => none
    extractBin := fun _ => some { size := 10, sha256 := "bb" }
    storage := { binaries := [], temp := [] } }

/-- The binaries listing `w4`'s run produces just before pruning. -/
def w4bin : List FsNode :=
  [FsNode.dir "v1.2.3" 777 (.cons (.file "rockide" ⟨10, "bb"⟩) .nil)]

/-- **C4** (counterexample): in the `w4` run the trace shows
`cleanupOldVersions` executing immediately before `verifyInstallation`,
and validation then fails (invalid 10-byte binary) — so pruning executed
although the new version's validation never completed successfully,
refuting "pruning is never executed before the new version's validation
completes". -/
theorem install_prunes_before_validation :
    (install w4 {}).2.2
      = [Event.netLatestRelease, Event.netDownloadAsset "https://dl/a.tar.gz",
         Event.extractArchive, Event.pruneOldVersions,
         Event.verifyInstall "binaries/v1.2.3/rockide",
         Event.showInstallError (.invalidBinarySize 10)] ∧
    (install w4 {}).1 = none := by
  have hprune : cleanupOldVersions noErr
      [FsNode.dir "v1.2.3" 777 (.cons (.file "rockide" ⟨10, "bb"⟩) .nil)]
      = [FsNode.dir "v1.2.3" 777 (.cons (.file "rockide" ⟨10, "bb"⟩) .nil)] :=
    cleanupOldVersions_small _ (by decide)
  have hrun : install w4 {}
      = (none, { binaries := w4bin, temp := [] },
         [Event.netLatestRelease, Event.netDownloadAsset "https://dl/a.tar.gz",
          Event.extractArchive, Event.pruneOldVersions,
          Event.verifyInstall "binaries/v1.2.3/rockide",
          Event.showInstallError (.invalidBinarySize 10)]) := by
    simp [install, getReleaseOrLatest, getInstalledBinaryPath, lookupIn, childNamed,
      getAssetForPlatform, getChecksumAssetForPlatform, downloadAndInstall,
      downloadWithProgress, extractTarGz, mkdirIfAbsent, putInDir, putFile,
      verifyInstallation, removeVersionDir, w4, w4bin, piLinux, isTruthy, hprune,
      FsNode.name, FsListing.toList]
  rw [hrun]
  exact ⟨rfl, rfl⟩

/-- Witness for the amended C4, at the small-binary world. -/
theorem install_prune_position_witness :
    Event.pruneOldVersions ∈ (install w4 {}).2.2 ∧
    (∃ l1 p l2, (install w4 {}).2.2
        = l1 ++ Event.pruneOldVersions :: Event.verifyInstall p :: l2 ∧
      Event.extractArchive ∈ l1) := by
  have hprune : cleanupOldVersions noErr
      [FsNode.dir "v1.2.3" 777 (.cons (.file "rockide" ⟨10, "bb"⟩) .nil)]
      = [FsNode.dir "v1.2.3" 777 (.cons (.file "rockide" ⟨10, "bb"⟩) .nil)] :=
    cleanupOldVersions_small _ (by decide)
  have hmem : Event.pruneOldVersions ∈ (install w4 {}).2.2 := by
    simp [install, getReleaseOrLatest, getInstalledBinaryPath, lookupIn, childNamed,
      getAssetForPlatform, getChecksumAssetForPlatform, downloadAndInstall,
      downloadWithProgress, extractTarGz, mkdirIfAbsent, putInDir, putFile,
      verifyInstallation, removeVersionDir, w4, piLinux, isTruthy, hprune,
      FsNode.name, FsListing.toList]
  exact ⟨hmem, install_prune_position w4 {} hmem⟩

/-! ### Claim C5: validation failure does not delete the version directory -/

/-- After `putFile`, the written file is the entry found under its name. -/
theorem childNamed_putFile (ns : List FsNode) (nm : String) (fd : FileData) :
    childNamed (putFile ns nm fd) nm = some (.file nm fd) := by
  rw [putFile]
  by_cases h : (childNamed ns nm).isSome
  · rw [if_pos h]
    induction ns with
    | nil => simp [childNamed] at h
    | cons a t ih =>
      by_cases ha : (a.name == nm) = true
      · simp only [childNamed, List.map_cons]
        rw [if_pos ha]
        rw [List.find?_cons_of_pos _ (by simp [FsNode.name])]
      · rw [childNamed, List.map_cons]
        rw [if_neg ha]
        rw [List.find?_cons_of_neg _ (by simp at ha ⊢; exact ha)]
        apply ih
        rw [childNamed] at h ⊢
        rwa [List.find?_cons_of_neg _ (by simp at ha ⊢; exact ha)] at h
  · rw [if_neg h]
    rw [childNamed, List.find?_append]
    have hnone : List.find? (fun n => n.name == nm) ns = none := by
      cases hq : List.find? (fun n => n.name == nm) ns with
      | none => rfl
      | some c => rw [childNamed, hq] at h; simp at h
    rw [hnone]
    simp [FsNode.name]

/-- Appending a fresh entry is found when the name is absent before. -/
theorem childNamed_append_absent (ns : List FsNode) (c : FsNode)
    (h : childNamed ns c.name = none) : childNamed (ns ++ [c]) c.name = some c := by
  rw [childNamed, List.find?_append]
  rw [childNamed] at h
  rw [h]
  simp

/-- `putInDir` is the identity when no entry bears the directory name. -/
theorem putInDir_absent (ns : List FsNode) (version nm : String) (fd : FileData)
    (h : childNamed ns version = none) : putInDir ns version nm fd = ns := by
  rw [putInDir]
  have hall := List.find?_eq_none.mp (by rw [childNamed] at h; exact h)
  conv_rhs => rw [← List.map_id ns]
  apply List.map_congr_left
  intro n hn
  have hne : (n.name == version) = false := by
    have := hall n hn
    simp at this ⊢
    exact this
  cases n with
  | file nm2 fd2 => rfl
  | dir v mt cs =>
    simp only [FsNode.name] at hne
    simp [hne]

/-- `dirEntries` distributes over append. -/
theorem dirEntries_append (l1 l2 : List FsNode) :
    dirEntries (l1 ++ l2) = dirEntries l1 ++ dirEntries l2 := by
  rw [dirEntries, dirEntries, dirEntries, List.filterMap_append]

/-- **C5** (amended): when the extracted binary fails validation (smaller
than the 1000000-byte plausibility threshold), `install` fails with the
invalid-binary outcome — but the newly created version directory is NOT
deleted: it stays in the store, binary included, and remains discoverable
as an installed version (`getInstalledBinaryPath` returns its path). -/
theorem install_invalid_binary_keeps_dir (w : InstallWorld) (rel : GitHubRelease)
    (asset : GitHubAsset) (afd bfd : FileData)
    (hcp : isTruthy w.customPath = false)
    (hlatest : w.latest = some rel)
    (hnochild : childNamed w.storage.binaries rel.tag_name = none)
    (hasset : getAssetForPlatform w.pinfo rel = some asset)
    (hcs : getChecksumAssetForPlatform w.pinfo rel = none)
    (hdl : w.download asset.browser_download_url = some afd)
    (hex : w.extractBin afd = some bfd)
    (hsize : bfd.size < 1000000)
    (hlen : (dirEntries w.storage.binaries).length < 5) :
    install w {} = (none,
      { binaries := w.storage.binaries ++
          [FsNode.dir rel.tag_name w.now (.cons (.file w.pinfo.executableName bfd) .nil)],
        temp := [] },
      [Event.netLatestRelease, Event.netDownloadAsset asset.browser_download_url,
       Event.extractArchive, Event.pruneOldVersions,
       Event.verifyInstall ("binaries/" ++ rel.tag_name ++ "/" ++ w.pinfo.executableName),
       Event.showInstallError (.invalidBinarySize bfd.size)]) ∧
    getInstalledBinaryPath w.pinfo (install w {}).2.1.binaries rel.tag_name
      = some ("binaries/" ++ rel.tag_name ++ "/" ++ w.pinfo.executableName) := by
  have hgip : getInstalledBinaryPath w.pinfo w.storage.binaries rel.tag_name = none := by
    simp [getInstalledBinaryPath, lookupIn, hnochild]
  have hdwp : downloadWithProgress w w.storage.temp asset.browser_download_url
      w.pinfo.archiveName none
      = (.ok (), putFile w.storage.temp w.pinfo.archiveName afd,
         [.netDownloadAsset asset.browser_download_url]) := by
    simp [downloadWithProgress, hdl]
  have hfind : childNamed (putFile w.storage.temp w.pinfo.archiveName afd)
      w.pinfo.archiveName = some (.file w.pinfo.archiveName afd) :=
    childNamed_putFile _ _ _
  have hbin1 : mkdirIfAbsent w.storage.binaries rel.tag_name w.now
      = w.storage.binaries ++ [.dir rel.tag_name w.now .nil] := by
    simp [mkdirIfAbsent, hnochild]
  have hput : putInDir (w.storage.binaries ++ [.dir rel.tag_name w.now .nil])
      rel.tag_name w.pinfo.executableName bfd
      = w.storage.binaries
        ++ [.dir rel.tag_name w.now (.cons (.file w.pinfo.executableName bfd) .nil)] := by
    rw [putInDir, List.map_append]
    have h1 := putInDir_absent w.storage.binaries rel.tag_name w.pinfo.executableName
      bfd hnochild
    rw [putInDir] at h1
    rw [h1]
    simp
  have hextract : extractTarGz w w.storage.binaries rel.tag_name afd
      = (.ok ("binaries/" ++ rel.tag_name ++ "/" ++ w.pinfo.executableName),
         w.storage.binaries
           ++ [.dir rel.tag_name w.now (.cons (.file w.pinfo.executableName bfd) .nil)],
         [.extractArchive]) := by
    simp only [extractTarGz, hbin1, hex, hput]
  have hdai : downloadAndInstall w w.storage rel.tag_name asset.browser_download_url none
      = (.ok ("binaries/" ++ rel.tag_name ++ "/" ++ w.pinfo.executableName),
         { binaries := w.storage.binaries
             ++ [.dir rel.tag_name w.now (.cons (.file w.pinfo.executableName bfd) .nil)],
           temp := [] },
         [.netDownloadAsset asset.browser_download_url, .extractArchive]) := by
    simp only [downloadAndInstall, hnochild, Option.isSome_none, Bool.false_eq_true,
      if_false, hdwp, hfind, hextract]
    rfl
  have hlen2 : (dirEntries (w.storage.binaries
      ++ [FsNode.dir rel.tag_name w.now (.cons (.file w.pinfo.executableName bfd) .nil)])).length
      ≤ 5 := by
    rw [dirEntries_append, List.length_append]
    have h1 : (dirEntries
        [FsNode.dir rel.tag_name w.now
          (.cons (.file w.pinfo.executableName bfd) .nil)]).length = 1 := rfl
    omega
  have hprune : cleanupOldVersions noErr (w.storage.binaries
      ++ [FsNode.dir rel.tag_name w.now (.cons (.file w.pinfo.executableName bfd) .nil)])
      = w.storage.binaries
        ++ [FsNode.dir rel.tag_name w.now (.cons (.file w.pinfo.executableName bfd) .nil)] :=
    cleanupOldVersions_small _ hlen2
  have hfound : childNamed (w.storage.binaries
      ++ [FsNode.dir rel.tag_name w.now (.cons (.file w.pinfo.executableName bfd) .nil)])
      rel.tag_name
      = some (FsNode.dir rel.tag_name w.now (.cons (.file w.pinfo.executableName bfd) .nil)) := by
    have h0 := childNamed_append_absent w.storage.binaries
      (FsNode.dir rel.tag_name w.now (.cons (.file w.pinfo.executableName bfd) .nil))
      (by simpa [FsNode.name] using hnochild)
    simpa [FsNode.name] using h0
  have hverify : verifyInstallation (w.storage.binaries
      ++ [FsNode.dir rel.tag_name w.now (.cons (.file w.pinfo.executableName bfd) .nil)])
      rel.tag_name w.pinfo.executableName = .error (.invalidBinarySize bfd.size) := by
    rw [verifyInstallation]
    simp only [lookupIn, hfound]
    simp [FsListing.toList, childNamed, FsNode.name, hsize]
  have hrun : install w {} = (none,
      { binaries := w.storage.binaries ++
          [FsNode.dir rel.tag_name w.now (.cons (.file w.pinfo.executableName bfd) .nil)],
        temp := [] },
      [Event.netLatestRelease, Event.netDownloadAsset asset.browser_download_url,
       Event.extractArchive, Event.pruneOldVersions,
       Event.verifyInstall ("binaries/" ++ rel.tag_name ++ "/" ++ w.pinfo.executableName),
       Event.showInstallError (.invalidBinarySize bfd.size)]) := by
    simp only [install, hcp, Bool.false_and, Bool.false_eq_true, if_false,
      getReleaseOrLatest, hlatest, hgip, hasset, hcs, Option.map, hdai, hprune, hverify]
    simp
  have hdisc : getInstalledBinaryPath w.pinfo (w.storage.binaries
      ++ [FsNode.dir rel.tag_name w.now (.cons (.file w.pinfo.executableName bfd) .nil)])
      rel.tag_name
      = some ("binaries/" ++ rel.tag_name ++ "/" ++ w.pinfo.executableName) := by
    simp only [getInstalledBinaryPath, lookupIn, hfound]
    simp [FsListing.toList, childNamed, FsNode.name]
  exact ⟨hrun, by rw [hrun]; exact hdisc⟩

/-- **C5** witness: the amended theorem instantiated at the concrete world
`w4` (empty store, 10-byte extracted binary): the run fails with the
invalid-binary outcome yet `v1.2.3` remains discoverable. -/
theorem install_invalid_binary_keeps_dir_witness :
    install w4 {} = (none,
      { binaries := [FsNode.dir "v1.2.3" 777 (.cons (.file "rockide" ⟨10, "bb"⟩) .nil)],
        temp := [] },
      [Event.netLatestRelease, Event.netDownloadAsset "https://dl/a.tar.gz",
       Event.extractArchive, Event.pruneOldVersions,
       Event.verifyInstall "binaries/v1.2.3/rockide",
       Event.showInstallError (.invalidBinarySize 10)]) ∧
    getInstalledBinaryPath piLinux (install w4 {}).2.1.binaries "v1.2.3"
      = some "binaries/v1.2.3/rockide" :=
  install_invalid_binary_keeps_dir w4
    { tag_name := "v1.2.3",
      assets := [{ name := "rockide_linux_amd64.tar.gz",
                   browser_download_url := "https://dl/a.tar.gz" }] }
    { name := "rockide_linux_amd64.tar.gz",
      browser_download_url := "https://dl/a.tar.gz" }
    ⟨50, "aa"⟩ ⟨10, "bb"⟩ rfl rfl rfl rfl rfl rfl rfl (by decide) (by decide)

/-- **C5** (counterexample): in the `w4` run the extracted binary is 10
bytes, validation fails, `install` returns `none` with the invalid-binary
error — yet the newly created `v1.2.3` version directory is NOT deleted:
`getInstalledBinaryPath` still reports it as installed, refuting "the newly
created version directory is deleted, so it is not left discoverable as an
installed version" (installer.ts 58-76 has no rollback after
`verifyInstallation` throws; the catch only logs and reports). -/
theorem install_invalid_binary_dir_not_deleted :
    (install w4 {}).1 = none ∧
    Event.showInstallError (.invalidBinarySize 10) ∈ (install w4 {}).2.2 ∧
    getInstalledBinaryPath piLinux (install w4 {}).2.1.binaries "v1.2.3"
      = some "binaries/v1.2.3/rockide" := by
  have hprune : cleanupOldVersions noErr
      [FsNode.dir "v1.2.3" 777 (.cons (.file "rockide" ⟨10, "bb"⟩) .nil)]
      = [FsNode.dir "v1.2.3" 777 (.cons (.file "rockide" ⟨10, "bb"⟩) .nil)] :=
    cleanupOldVersions_small _ (by decide)
  have hrun : install w4 {}
      = (none, { binaries := w4bin, temp := [] },
         [Event.netLatestRelease, Event.netDownloadAsset "https://dl/a.tar.gz",
          Event.extractArchive, Event.pruneOldVersions,
          Event.verifyInstall "binaries/v1.2.3/rockide",
          Event.showInstallError (.invalidBinarySize 10)]) := by
    simp [install, getReleaseOrLatest, getInstalledBinaryPath, lookupIn, childNamed,
      getAssetForPlatform, getChecksumAssetForPlatform, downloadAndInstall,
      downloadWithProgress, extractTarGz, mkdirIfAbsent, putInDir, putFile,
      verifyInstallation, removeVersionDir, w4, w4bin, piLinux, isTruthy, hprune,
      FsNode.name, FsListing.toList]
  refine ⟨by rw [hrun], by rw [hrun]; simp, by rw [hrun]; rfl⟩

/-- **C6**: when a checksum asset exists for the platform and the
downloaded archive's digest differs (case-insensitively) from the digest
the checksum manifest lists for the archive, `install` fails with the
checksum-mismatch outcome and the staged archive is deleted before the
error is surfaced: the temp staging dir ends exactly as it started, with
no entry at the archive name, so extraction can never pick the corrupted
file up.  The binaries store is untouched. -/
theorem install_checksum_mismatch_deletes_archive (w : InstallWorld)
    (rel : GitHubRelease) (asset csAsset : GitHubAsset) (afd : FileData)
    (text expected : String)
    (hcp : isTruthy w.customPath = false)
    (hlatest : w.latest = some rel)
    (hnochild : childNamed w.storage.binaries rel.tag_name = none)
    (hasset : getAssetForPlatform w.pinfo rel = some asset)
    (hcs : getChecksumAssetForPlatform w.pinfo rel = some csAsset)
    (hdl : w.download asset.browser_download_url = some afd)
    (hct : w.checksumText csAsset.browser_download_url = some text)
    (hexp : parseChecksumFile text w.pinfo.archiveName = some expected)
    (hmm : (lowerStr afd.sha256 == lowerStr expected) = false)
    (htemp : childNamed w.storage.temp w.pinfo.archiveName = none) :
    install w {} = (none,
      { binaries := w.storage.binaries, temp := w.storage.temp },
      [Event.netLatestRelease, Event.netDownloadAsset asset.browser_download_url,
       Event.netFetchChecksum csAsset.browser_download_url,
       Event.showInstallError .checksumMismatch]) ∧
    childNamed (install w {}).2.1.temp w.pinfo.archiveName = none := by
  have hgip : getInstalledBinaryPath w.pinfo w.storage.binaries rel.tag_name = none := by
    simp [getInstalledBinaryPath, lookupIn, hnochild]
  have hall : ∀ b ∈ w.storage.temp, ¬(FsNode.name b == w.pinfo.archiveName) = true :=
    List.find?_eq_none.mp (by simpa [childNamed] using htemp)
  have herase : (putFile w.storage.temp w.pinfo.archiveName afd).eraseP
      (fun n => FsNode.name n == w.pinfo.archiveName) = w.storage.temp := by
    rw [putFile, htemp]
    simp only [Option.isSome_none, Bool.false_eq_true, if_false]
    rw [List.eraseP_append_right _ hall]
    simp [List.eraseP_cons, FsNode.name]
  have hdwp : downloadWithProgress w w.storage.temp asset.browser_download_url
      w.pinfo.archiveName (some csAsset.browser_download_url)
      = (.error .checksumMismatch, w.storage.temp,
         [.netDownloadAsset asset.browser_download_url,
          .netFetchChecksum csAsset.browser_download_url]) := by
    simp only [downloadWithProgress, hdl, hct, hexp, hmm, Bool.false_eq_true, if_false]
    rw [herase]
  have hrv : removeVersionDir noErr w.storage.binaries rel.tag_name
      = w.storage.binaries := by
    simp only [removeVersionDir, hnochild]
  have hdai : downloadAndInstall w w.storage rel.tag_name asset.browser_download_url
      (some csAsset.browser_download_url)
      = (.error .checksumMismatch,
         { binaries := w.storage.binaries, temp := w.storage.temp },
         [.netDownloadAsset asset.browser_download_url,
          .netFetchChecksum csAsset.browser_download_url]) := by
    simp only [downloadAndInstall, hnochild, Option.isSome_none, Bool.false_eq_true,
      if_false, hdwp, hrv]
  have hrun : install w {} = (none,
      { binaries := w.storage.binaries, temp := w.storage.temp },
      [Event.netLatestRelease, Event.netDownloadAsset asset.browser_download_url,
       Event.netFetchChecksum csAsset.browser_download_url,
       Event.showInstallError .checksumMismatch]) := by
    simp only [install, hcp, Bool.false_and, Bool.false_eq_true, if_false,
      getReleaseOrLatest, hlatest, hgip, hasset, hcs, Option.map, hdai]
    simp
  exact ⟨hrun, by rw [hrun]; exact htemp⟩

/-- World for the C6 witness: the release carries the archive and its
`.sha256` manifest; the manifest lists an all-`a` digest while the
downloaded archive hashes to `bbbb`. -/
def w6 : InstallWorld :=
  { customPath := none
    customPathExists := false
    releases := []
    latest := some { tag_name := "v2.0.0",
                     assets := [{ name := "rockide_linux_amd64.tar.gz",
                                  browser_download_url := "https://dl/a.tar.gz" },
                                { name := "rockide_linux_amd64.tar.gz.sha256",
                                  browser_download_url := "https://dl/a.tar.gz.sha256" }] }
    pinfo := piLinux
    now := 5
    download := fun _ => some { size := 50, sha256 := "bbbb" }
    checksumText := fun _ => some
      ("aaaaaaaaaaaaaaaaaaaaaaaaaaaaaaaaaaaaaaaaaaaaaaaaaaaaaaaaaaaaaaaa *rockide_linux_amd64.tar.gz")
    extractBin := fun _ => some { size := 2000000, sha256 := "cc" }
    storage := { binaries := [], temp := [] } }

/-- **C6** witness: the mismatch theorem instantiated at `w6`: the install
fails with `checksumMismatch` and the staged archive is gone. -/
theorem install_checksum_mismatch_deletes_archive_witness :
    install w6 {} = (none, { binaries := [], temp := [] },
      [Event.netLatestRelease, Event.netDownloadAsset "https://dl/a.tar.gz",
       Event.netFetchChecksum "https://dl/a.tar.gz.sha256",
       Event.showInstallError .checksumMismatch]) ∧
    childNamed (install w6 {}).2.1.temp "rockide_linux_amd64.tar.gz" = none :=
  install_checksum_mismatch_deletes_archive w6
    { tag_name := "v2.0.0",
      assets := [{ name := "rockide_linux_amd64.tar.gz",
                   browser_download_url := "https://dl/a.tar.gz" },
                 { name := "rockide_linux_amd64.tar.gz.sha256",
                   browser_download_url := "https://dl/a.tar.gz.sha256" }] }
    { name := "rockide_linux_amd64.tar.gz",
      browser_download_url := "https://dl/a.tar.gz" }
    { name := "rockide_linux_amd64.tar.gz.sha256",
      browser_download_url := "https://dl/a.tar.gz.sha256" }
    ⟨50, "bbbb"⟩
    "aaaaaaaaaaaaaaaaaaaaaaaaaaaaaaaaaaaaaaaaaaaaaaaaaaaaaaaaaaaaaaaa *rockide_linux_amd64.tar.gz"
    "aaaaaaaaaaaaaaaaaaaaaaaaaaaaaaaaaaaaaaaaaaaaaaaaaaaaaaaaaaaaaaaa"
    rfl rfl rfl rfl rfl rfl rfl (by decide) (by decide) rfl

/-! ## Update checks: `RockideInstaller.checkForUpdates` (installer.ts
97-111), `checkForUpdatesInBackground` (extension.ts), and the functional
variant `updateRockide` (rockide.ts 100-135) -/

/-- The background gate interval of `checkForUpdatesInBackground`
(extension.ts): 24 hours in milliseconds. -/
def twentyFourHours : Nat := 24 * 60 * 60 * 1000

/-- `UPDATE_CHECK_INTERVAL` (rockide.ts 12): 12 hours in milliseconds. -/
def UPDATE_CHECK_INTERVAL : Nat := 12 * 60 * 60 * 1000

/-- `RockideInstaller.checkForUpdates` (installer.ts 97-111): resolve the
current version (filesystem work, summarised in `currentVersion`), fetch
the latest release — a network call performed on every invocation, with no
gate and no timestamp involved — and report whether the latest tag differs
from the current version; `false` when either side is missing.  Returns
(result, events). -/
def checkForUpdates (currentVersion : Option String)
    (latest : Option GitHubRelease) : Bool × List Event :=
  (match latest, currentVersion with
   | some rel, some cv => rel.tag_name != cv
   | _, _ => false,
   [.netLatestRelease])

/-- `checkForUpdatesInBackground` (extension.ts 194-235): bail out unless
`rockide.autoUpdate`; bail out when less than 24 hours have passed since
the `rockide.lastUpdateCheck` global-state timestamp; otherwise record the
current time in that key and run `installer.checkForUpdates`, prompting
when an update exists.  Returns (new stored timestamp, events). -/
def checkForUpdatesInBackground (autoUpdate : Bool) (lastCheck now : Nat)
    (currentVersion : Option String) (latest : Option GitHubRelease) :
    Nat × List Event :=
  if !autoUpdate then (lastCheck, [])
  else if now - lastCheck < twentyFourHours then (lastCheck, [])
  else
    let (hasUpdate, ev) := checkForUpdates currentVersion latest
    (now,
     ev ++ if hasUpdate
       then [.showInfo "A new version of Rockide is available. Would you like to update?"]
       else [])

/-- `updateRockide` (rockide.ts 100-135): when `silent`, skip entirely if
less than `UPDATE_CHECK_INTERVAL` (12 hours) has passed since the
`lastUpdate` global-state timestamp; otherwise record `now` in that key;
prompt installation when no executable is resolvable; do nothing for a dev
build (unparsable `--version`); else fetch the latest release (network)
and prompt or report up-to-date.  Returns (stored timestamp, events). -/
def updateRockide (silent : Bool) (lastUpdate now : Nat) (installedExe : Bool)
    (currentVersion : Option String) (latestTag : String) : Nat × List Event :=
  if silent && now - lastUpdate < UPDATE_CHECK_INTERVAL then (lastUpdate, [])
  else
    if !installedExe then
      (now, [.showInfo "Rockide language server is not installed. Do you want to install it now?"])
    else match currentVersion with
      | none => (now, [])
      | some cv =>
          if latestTag == cv then
            (now, [.netLatestRelease] ++
              if !silent then [.showInfo "Rockide is already up to date."] else [])
          else
            (now, [.netLatestRelease,
              .showInfo "A new version of Rockide is available. Would you like to update?"])

/-- **C9** (counterexample): with the silent flag, a last-check timestamp
of 0 and the clock at 13 hours — squarely within the claimed 24-hour gate
interval — `updateRockide` (rockide.ts) is NOT a no-op: its gate is only
12 hours (`UPDATE_CHECK_INTERVAL`), so it performs the latest-release
network fetch and re-records the timestamp, refuting "any update check
invoked while still within the [24-hour] gate interval is a no-op ...
without performing any network call".  `RockideInstaller.checkForUpdates`
itself performs the network fetch on every single invocation, with no gate
at all. -/
theorem updateRockide_network_within_24h :
    46800000 - 0 < twentyFourHours ∧
    Event.netLatestRelease ∈ (updateRockide true 0 46800000 true (some "1.2.2") "1.2.3").2 ∧
    (updateRockide true 0 46800000 true (some "1.2.2") "1.2.3").1 = 46800000 ∧
    (checkForUpdates (some "1.2.2") (some { tag_name := "1.2.3", assets := [] })).2
      = [Event.netLatestRelease] := by
  decide

/-- **C9** (amended): the 24-hour gate with a recorded timestamp exists
only in the background check (extension.ts): within 24 hours of the stored
`rockide.lastUpdateCheck` it is a no-op — no network, timestamp untouched —
and past the gate (with auto-update on) it records the current time and
performs the network fetch.  `RockideInstaller.checkForUpdates` is ungated:
every invocation performs the latest-release network call.  The rockide.ts
variant gates its silent path by 12 hours (`UPDATE_CHECK_INTERVAL`), not
24. -/
theorem update_check_gating (au : Bool) (lc1 now1 lc2 now2 lu now3 : Nat)
    (cv cv3 : Option String) (lat : Option GitHubRelease)
    (inst : Bool) (tag : String)
    (h1 : now1 - lc1 < twentyFourHours)
    (h2 : twentyFourHours ≤ now2 - lc2)
    (h3 : now3 - lu < UPDATE_CHECK_INTERVAL) :
    checkForUpdatesInBackground au lc1 now1 cv lat = (lc1, []) ∧
    (au = true →
      (checkForUpdatesInBackground au lc2 now2 cv lat).1 = now2 ∧
      Event.netLatestRelease ∈ (checkForUpdatesInBackground au lc2 now2 cv lat).2) ∧
    updateRockide true lu now3 inst cv3 tag = (lu, []) ∧
    (checkForUpdates cv lat).2 = [Event.netLatestRelease] := by
  refine ⟨?_, ?_, ?_, rfl⟩
  · cases au with
    | false => rfl
    | true => simp [checkForUpdatesInBackground, h1]
  · rintro rfl
    have hgate : ¬(now2 - lc2 < twentyFourHours) := by omega
    constructor
    · simp [checkForUpdatesInBackground, hgate, checkForUpdates]
    · simp [checkForUpdatesInBackground, hgate, checkForUpdates]
  · simp [updateRockide, h3]

/-- **C9** witness: the amendment at concrete inputs — a background check
1 second after the stored timestamp is a no-op, one exactly 24 hours later
records the time and fetches, and the silent rockide.ts path skips at 5 ms
past a zero timestamp. -/
theorem update_check_gating_witness :
    checkForUpdatesInBackground true 0 1000 (some "1.0.0")
      (some { tag_name := "1.0.1", assets := [] }) = (0, []) ∧
    (true = true →
      (checkForUpdatesInBackground true 0 86400000 (some "1.0.0")
        (some { tag_name := "1.0.1", assets := [] })).1 = 86400000 ∧
      Event.netLatestRelease ∈ (checkForUpdatesInBackground true 0 86400000 (some "1.0.0")
        (some { tag_name := "1.0.1", assets := [] })).2) ∧
    updateRockide true 0 5 true (some "1.0.0") "1.0.1" = (0, []) ∧
    (checkForUpdates (some "1.0.0")
      (some { tag_name := "1.0.1", assets := [] })).2 = [Event.netLatestRelease] :=
  update_check_gating true 0 1000 0 86400000 0 5 (some "1.0.0") (some "1.0.0")
    (some { tag_name := "1.0.1", assets := [] }) true "1.0.1"
    (by decide) (by decide) (by decide)
